import Mathlib

/-!
Shallow embedding of the Markov-chain text generator `mark.go` (repository
kuya-kevin/mark) and proofs about its specification.

Conventions of the embedding:
* A token is a `String`.  Tokens scanned by `fmt.Fscan` from an input stream
  are whitespace-delimited, hence non-empty and free of whitespace characters.
* Go maps keyed by strings are modelled as association lists whose update
  functions insert new keys at the end; lookups are extensional, so no claim
  depends on Go's (unspecified) map iteration order except where the source
  itself iterates a map (`Generate`'s candidate pool), which is noted there.
* The persisted model file is modelled at field granularity: a file is a
  header line (a raw string) plus a list of data lines, each a list of
  whitespace-separated fields.  The writer joins fields with single spaces and
  the reader splits with `strings.Fields`; for fields that are non-empty and
  contain no whitespace (which is the case for everything the writer emits)
  this join/split is the identity, so field granularity is faithful.
* Go panics (out-of-range slicing, `strconv.Atoi` failure on the header,
  `rand.Intn(0)`) are modelled as `none`.
* `math/rand` is modelled as an oracle `rng : Nat → Nat`; the i-th call of
  `rand.Intn bound` returns `rng i % bound` (and panics, i.e. `none`, when
  `bound = 0`, as `rand.Intn` does).  Quantifying over all oracles covers
  every sequence of random choices.
-/

abbrev Token := String

/-- Result of `strconv.Quote ""`: the two-character marker written for an empty token. -/
def quoteEmpty : String := "\"\""

/-! ### Decimal integers: models of `strconv.Itoa` and `strconv.Atoi` -/

/-- The ASCII digit character for `d < 10`. -/
def digitChar (d : Nat) : Char := Char.ofNat (48 + d)

/-- Decimal digits of `n`, least significant first; fuel-structured so that it
reduces in the kernel.  The fuel `n+1` always suffices. -/
def natDigitsRevAux : Nat → Nat → List Char
  | 0, _ => []
  | fuel + 1, n => if n < 10 then [digitChar n] else digitChar (n % 10) :: natDigitsRevAux fuel (n / 10)

def natDigitsRev (n : Nat) : List Char := natDigitsRevAux (n + 1) n

def natStr (n : Nat) : String := ⟨(natDigitsRev n).reverse⟩

/-- Model of Go `strconv.Itoa`: standard decimal rendering of an integer. -/
def Itoa (i : Int) : String := if i < 0 then "-" ++ natStr (-i).toNat else natStr i.toNat

def digitVal (c : Char) : Nat := c.toNat - 48

def parseDigitsAux : List Char → Nat → Option Nat
  | [], acc => some acc
  | c :: cs, acc => if c.isDigit then parseDigitsAux cs (10 * acc + digitVal c) else none

/-- Parse a non-empty all-digit string as a natural number. -/
def parseDigits : List Char → Option Nat
  | [] => none
  | cs => parseDigitsAux cs 0

/-- Model of Go `strconv.Atoi`: an optional sign followed by at least one
decimal digit; anything else is an error (`none`).  (Go additionally range
checks against the machine int; the range never matters here.) -/
def AtoiData : List Char → Option Int
  | [] => none
  | c :: cs =>
      if c = '-' then (parseDigits cs).map fun n => -(n : Int)
      else if c = '+' then (parseDigits cs).map fun n => (n : Int)
      else (parseDigits (c :: cs)).map fun n => (n : Int)

def Atoi (s : String) : Option Int := AtoiData s.data

/-! ### Model of `strings.Split (s, " ")` (structural, kernel-reducible) -/

def splitSpaceAux : List Char → List Char → List String
  | [], acc => [⟨acc.reverse⟩]
  | c :: cs, acc => if c = ' ' then ⟨acc.reverse⟩ :: splitSpaceAux cs [] else splitSpaceAux cs (c :: acc)

/-- Model of Go `strings.Split (s, " ")`: split at every single space,
keeping empty pieces. -/
def splitSpace (s : String) : List String := splitSpaceAux s.data []

/-- Token count of a generated string: the number of non-empty space-separated
pieces, i.e. `len(strings.Fields s)` for strings whose only whitespace is the
space character (the generator only ever joins with single spaces). -/
def numTokens (s : String) : Nat := ((splitSpace s).filter fun t => t ≠ "").length

/-! ### Association-list models of the Go maps -/

abbrev InnerMap := List (String × Int)
abbrev PairMap := List (String × InnerMap)
abbrev ChainMap := List (String × List String)

def lookupStr {α : Type} : List (String × α) → String → Option α
  | [], _ => none
  | (a, b) :: t, k => if a = k then some b else lookupStr t k

/-- Reading `m[s]` from a Go `map[string]int`: missing keys read as 0. -/
def innerGet (m : InnerMap) (s : String) : Int := (lookupStr m s).getD 0

/-- Update `m[s] += d` on a Go `map[string]int` (creates the key when absent). -/
def innerAdd : InnerMap → String → Int → InnerMap
  | [], s, d => [(s, d)]
  | (a, b) :: t, s, d => if a = s then (a, b + d) :: t else (a, b) :: innerAdd t s d

/-- Reading `pm[k]` from `map[string]map[string]int`: missing keys read nil. -/
def pmGetInner (pm : PairMap) (k : String) : InnerMap := (lookupStr pm k).getD []

def pmGet (pm : PairMap) (k s : String) : Int := innerGet (pmGetInner pm k) s

/-- Model of `if pm[k] == nil { pm[k] = make(...) }; pm[k][s] += d`. -/
def pmAdd : PairMap → String → String → Int → PairMap
  | [], k, s, d => [(k, [(s, d)])]
  | (a, m) :: t, k, s, d => if a = k then (a, innerAdd m s d) :: t else (a, m) :: pmAdd t k s d

/-- Model of `if pm[k] == nil { pm[k] = make(...) }` alone (reader, before the pair loop). -/
def pmEnsure : PairMap → String → PairMap
  | [], k => [(k, [])]
  | (a, m) :: t, k => if a = k then (a, m) :: t else (a, m) :: pmEnsure t k

def pmKeys (pm : PairMap) : List String := pm.map Prod.fst

def innerKeys (pm : PairMap) (k : String) : List String := (pmGetInner pm k).map Prod.fst

/-- Reading `ch[k]` from `map[string][]string`: missing keys read nil. -/
def chGetL (ch : ChainMap) (k : String) : List String := (lookupStr ch k).getD []

/-- Model of `ch[k] = append(ch[k], s)` (creates the key when absent). -/
def chAppend : ChainMap → String → String → ChainMap
  | [], k, s => [(k, [s])]
  | (a, l) :: t, k, s => if a = k then (a, l ++ [s]) :: t else (a, l) :: chAppend t k s

/-- Source helper `Find`: checks if a string is in a list of strings. -/
def Find : List String → String → Bool
  | [], _ => false
  | x :: xs, v => if x = v then true else Find xs v

/-- Model of `if !Find(ch[k], s) { ch[k] = append(ch[k], s) }`. -/
def chAdd (ch : ChainMap) (key s : String) : ChainMap :=
  if Find (chGetL ch key) s then ch else chAppend ch key s

/-! ### The `Chain` struct and its operations -/

/-- Model of `Prefix.String()`: the window joined with single spaces, used as map key. -/
def prefixKey (p : List Token) : String := String.intercalate " " p

/-- Model of `Prefix.Shift`: drop the first word, append the given word.  (For an empty
window, i.e. order 0, the Go original panics on `p[len(p)-1]`; every theorem
below assumes order ≥ 1.) -/
def shift (p : List Token) (w : Token) : List Token := p.drop 1 ++ [w]

structure Chain where
  chain : ChainMap
  prefixLen : Nat
  text : List (List Token)
  pairmap : PairMap
  prefixStorage : List String
deriving DecidableEq, Repr

def NewChain (prefixLen : Nat) : Chain := ⟨[], prefixLen, [], [], []⟩

/-- The loop body of `Build`, recursing over the scanned tokens: for each
token `s`, increment `pairmap[key][s]`, record `s` in `chain[key]` when not
already present, and slide the window. -/
def buildGo (pm : PairMap) (ch : ChainMap) (p : List Token) : List Token → PairMap × ChainMap
  | [] => (pm, ch)
  | s :: rest =>
      let key := prefixKey p
      buildGo (pmAdd pm key s 1) (chAdd ch key s) (shift p s) rest

/-- Model of `Chain.Build`: scan a corpus (whitespace-delimited tokens, given here as
the token list the scanner produces), update `pairmap` and `chain` starting
from a window of `prefixLen` empty strings, and record the raw token sequence
in `text`. -/
def Build (c : Chain) (ts : List Token) : Chain :=
  let r := buildGo c.pairmap c.chain (List.replicate c.prefixLen "") ts
  { c with pairmap := r.1, chain := r.2, text := c.text ++ [ts] }

/-- One `Build` call per input corpus, as `main`'s read mode does. -/
def BuildMany (c : Chain) (tss : List (List Token)) : Chain := tss.foldl Build c

/-! ### `WriteModel` -/

/-- Formatting of the prefix tokens of an output line: each empty-string
token is rewritten as the `strconv.Quote("")` marker. -/
def fmtWindow (p : List Token) : List String :=
  p.map fun w => if w = "" then quoteEmpty else w

/-- Formatting of the suffix part of an output line: for each recorded suffix,
the suffix and its cumulative count — except that an empty-string suffix is
written as the bare marker with no count field (the writer's empty-suffix
branch). -/
def fmtSuffixes (pm : PairMap) (key : String) (choices : List String) : List String :=
  choices.flatMap fun w =>
    if w = "" then [quoteEmpty] else [w, Itoa (pmGet pm key w)]

/-- The replay loop of `WriteModel` over one recorded corpus: re-slide the
window; stop early if `chain` has no suffixes for the current key; emit one
line the first time each key is seen (tracked in `storage`). -/
def writeGo (c : Chain) : List Token → List Token → List String → List (List String) × List String
  | _, [], storage => ([], storage)
  | p, next :: rest, storage =>
      let key := prefixKey p
      let choices := chGetL c.chain key
      if choices.length = 0 then ([], storage)
      else if Find storage key then writeGo c (shift p next) rest storage
      else
        let line := fmtWindow p ++ fmtSuffixes c.pairmap key choices
        let r := writeGo c (shift p next) rest (storage ++ [key])
        (line :: r.1, r.2)

def writeCorpora (c : Chain) : List (List Token) → List String → List (List String) × List String
  | [], storage => ([], storage)
  | ts :: tss, storage =>
      let r1 := writeGo c (List.replicate c.prefixLen "") ts storage
      let r2 := writeCorpora c tss r1.2
      (r1.1 ++ r2.1, r2.2)

/-- A persisted model at field granularity: the header line (raw) and the
data lines (lists of whitespace-separated fields). -/
structure ModelFile where
  header : String
  lines : List (List String)
deriving DecidableEq, Repr

/-- Model of `Chain.WriteModel`: header line carrying the order, then the replay of
every recorded corpus.  Returns the file together with the chain whose
`prefixStorage` the replay has filled in (the Go method mutates `c`). -/
def WriteModel (c : Chain) : ModelFile × Chain :=
  (⟨Itoa (c.prefixLen : Int), (writeCorpora c c.text c.prefixStorage).1⟩,
    { c with prefixStorage := (writeCorpora c c.text c.prefixStorage).2 })

/-! ### `ReadChainFromFile` -/

/-- The reader's quote fix: a field equal to `strconv.Quote("")` is replaced
by the empty string. -/
def restoreField (f : String) : String := if f = quoteEmpty then "" else f

/-- The reader's frequency parse: on `strconv.Atoi` failure it prints a
diagnostic and continues with `freq = 0` (Go leaves `freq` zero-valued). -/
def atoiOr0 (f : String) : Int := (Atoi f).getD 0

/-- The reader's suffix loop: consume `numSuffix` (suffix, count) field pairs,
adding each count into `pm[pre][suffix]`. -/
def readPairs (pm : PairMap) (pre : String) : List String → Nat → PairMap
  | _, 0 => pm
  | s :: f :: rest, n + 1 => readPairs (pmAdd pm pre s (atoiOr0 f)) pre rest n
  | _, _ + 1 => pm

/-- Processing of one data line: quote-fix all fields, take the first `order`
fields as the prefix key (Go panics — `none` — when the line has fewer than
`order` fields), append the key to `prefixStorage` unconditionally, and add
`len(rest)/2` (suffix, count) pairs. -/
def readLine (order : Nat) (pm : PairMap) (storage : List String) (fields0 : List String) :
    Option (PairMap × List String) :=
  if fields0.length < order then none
  else
    let fields := fields0.map restoreField
    let pre := String.intercalate " " (fields.take order)
    let rest := fields.drop order
    some (readPairs (pmEnsure pm pre) pre rest (rest.length / 2), storage ++ [pre])

def readLines (order : Nat) (pm : PairMap) (storage : List String) :
    List (List String) → Option (PairMap × List String)
  | [] => some (pm, storage)
  | l :: ls => (readLine order pm storage l).bind fun r => readLines order r.1 r.2 ls

/-- Model of `ReadChainFromFile`: parse the header as the order (panic — `none` — when
not an integer), then process every data line.  A negative order would panic
at the first data line's `fields[0:order]`; we reject it up front, which
agrees with Go on every file that has at least one data line. -/
def ReadChainFromFile (file : ModelFile) : Option Chain :=
  (Atoi file.header).bind fun o =>
    if o < 0 then none
    else
      (readLines o.toNat [] [] file.lines).map fun r =>
        { NewChain o.toNat with pairmap := r.1, prefixStorage := r.2 }

/-! ### `Generate` -/

/-- The weighted candidate pool: each suffix repeated `count` times (Go's
inner `for j < choices[key]` loop; non-positive counts contribute nothing).
Go iterates the map in unspecified order; the pool order only affects which
index the random oracle must produce to select a given suffix. -/
def weightedPool (m : InnerMap) : List String :=
  m.flatMap fun kv => List.replicate kv.2.toNat kv.1

/-- The generation loop: up to `fuel = n - prefixLen` iterations; stop at a
key with no choices; `rand.Intn(len(keys))` is `rng i % len` and panics
(`none`) when the pool is empty. -/
def genLoop (c : Chain) (rng : Nat → Nat) : Nat → Nat → List Token → List String → Option (List String)
  | 0, _, _, words => some words
  | fuel + 1, i, p, words =>
      let choices := pmGetInner c.pairmap (prefixKey p)
      if choices.length = 0 then some words
      else
        let keys := weightedPool choices
        if keys.length = 0 then none
        else
          let suffix := keys.getD (rng i % keys.length) ""
          genLoop c rng fuel (i + 1) (shift p suffix) (words ++ [suffix])

/-- Model of `Chain.Generate`, returning the `words` slice before the final join:
pick a random starting key from `prefixStorage` (`rand.Intn` panics — `none` —
when it is empty), split it into a window, emit it joined, then run the loop
`n - prefixLen` times (zero times when `n ≤ prefixLen`, as in Go's
`i < n - c.prefixLen` over negative bounds). -/
def GenerateWords (c : Chain) (n : Nat) (rng : Nat → Nat) : Option (List String) :=
  if c.prefixStorage.length = 0 then none
  else
    let key := c.prefixStorage.getD (rng 0 % c.prefixStorage.length) ""
    let p := splitSpace key
    genLoop c rng (n - c.prefixLen) 1 p [String.intercalate " " p]

/-- Model of `Chain.Generate`: the words joined with single spaces. -/
def Generate (c : Chain) (n : Nat) (rng : Nat → Nat) : Option String :=
  (GenerateWords c n rng).map (String.intercalate " ")

/-! ### Specification-side helper definitions (used only in statements and
proofs, never as a model of missing code) -/

/-- The trajectory of (window, token) steps the sliding window takes over a
corpus. -/
def Traj (p : List Token) : List Token → List (List Token × Token)
  | [] => []
  | s :: rest => (p, s) :: Traj (shift p s) rest

/-- A trajectory step keyed by its window's string key. -/
def keyed (pr : List Token × Token) : String × Token := (prefixKey pr.1, pr.2)

/-- The full replay trajectory over a corpus list, each corpus starting from
the all-empty window of length `k`. -/
def wTraj (k : Nat) (tss : List (List Token)) : List (List Token × Token) :=
  tss.flatMap fun ts => Traj (List.replicate k "") ts

def keysOf (prs : List (List Token × Token)) : List String := prs.map fun pr => prefixKey pr.1

/-- Fold a key sequence into a first-seen store (appending unseen keys). -/
def accNew (st : List String) : List String → List String
  | [] => st
  | k :: ks => if Find st k then accNew st ks else accNew (st ++ [k]) ks

/-- The subsequence of keys that are new relative to `st`, first occurrences
only (the order in which the writer emits lines). -/
def newOnes (st : List String) : List String → List String
  | [] => []
  | k :: ks => if Find st k then newOnes st ks else k :: newOnes (st ++ [k]) ks

/-- The writer's output lines, computed from the trajectory instead of the
token list (provably equal to `writeGo` when the replay never dead-ends). -/
def wlines (c : Chain) : List String → List (List Token × Token) → List (List String)
  | _, [] => []
  | st, (w, _) :: rest =>
      let key := prefixKey w
      if Find st key then wlines c st rest
      else (fmtWindow w ++ fmtSuffixes c.pairmap key (chGetL c.chain key)) :: wlines c (st ++ [key]) rest

/-- The prefix key the reader extracts from a data line. -/
def lineKeyR (order : Nat) (fields : List String) : String :=
  String.intercalate " " ((fields.map restoreField).take order)

/-- A token as produced by the input scanner `fmt.Fscan` (non-empty, no
whitespace), additionally different from the quoted-empty marker. -/
def GoodToken (t : Token) : Prop := t ≠ "" ∧ t ≠ quoteEmpty ∧ ∀ ch ∈ t.data, ¬ ch.isWhitespace

instance : DecidablePred GoodToken := fun t => by unfold GoodToken; infer_instance

/-! ### Proof-side auxiliary definitions -/

/-- Abstraction of the shared shape of the four map updates (`innerAdd`,
`pmAdd`, `pmEnsure`, `chAppend`): modify the entry in place when the key is
present, append a fresh entry otherwise. -/
def updateL {α : Type} (f : α → α) (init : α) : List (String × α) → String → List (String × α)
  | [], k => [(k, init)]
  | (a, b) :: t, k => if a = k then (a, f b) :: t else (a, b) :: updateL f init t k

def updVal {α : Type} (f : α → α) (init : α) : Option α → α
  | some b => f b
  | none => init

/-- Value of a digit list, least significant first. -/
def valRev : List Char → Nat
  | [] => 0
  | c :: cs => digitVal c + 10 * valRev cs

/-- Occurrence count of the keyed pair `(K, s)` in a keyed trajectory. -/
def cntKS : List (String × Token) → String → String → Nat
  | [], _, _ => 0
  | (a, b) :: t, K, s => (if a = K ∧ b = s then 1 else 0) + cntKS t K s

/-- Sanity check: concrete evaluation of the decimal encoders. -/
theorem sanity_decimal :
    Itoa 37 = "37" ∧ Itoa (-5) = "-5" ∧ Atoi "37" = some 37 ∧ Atoi "x" = none ∧
      Atoi "-12" = some (-12) := by decide

/-- Sanity check: concrete evaluation of the space splitter. -/
theorem sanity_split :
    splitSpace "a b" = ["a", "b"] ∧ splitSpace " a" = ["", "a"] := by decide

/-- Sanity check: building, writing and reading a one-token corpus at order 1
produces the expected concrete table, file and read-back chain. -/
theorem sanity_pipeline :
    (Build (NewChain 1) ["a"]).pairmap = [("", [("a", 1)])] ∧
      (WriteModel (Build (NewChain 1) ["a"])).1 = ⟨"1", [[quoteEmpty, "a", "1"]]⟩ ∧
      ReadChainFromFile ⟨"1", [[quoteEmpty, "a", "1"]]⟩ =
        some { NewChain 1 with
                pairmap := [("", [("a", 1)])],
                prefixStorage := [""] } := by decide


/-! ### Basic lemmas about the association-list maps

All four map updates of the embedding (`innerAdd`, `pmAdd`, `pmEnsure`,
`chAppend`) follow one shape: modify the entry in place when the key is
present, append a fresh entry otherwise.  `updateL` abstracts that shape for
the proofs. -/

theorem lookupStr_updateL {α : Type} (f : α → α) (init : α) (l : List (String × α))
    (k k' : String) :
    lookupStr (updateL f init l k) k' =
      if k' = k then some (updVal f init (lookupStr l k)) else lookupStr l k' := by
  induction l with
  | nil =>
      by_cases h : k' = k
      · simp [updateL, lookupStr, h, updVal]
      · have h' : ¬ k = k' := fun hh => h hh.symm
        simp [updateL, lookupStr, h, h', updVal]
  | cons a t ih =>
      obtain ⟨a1, b⟩ := a
      by_cases h1 : a1 = k
      · subst h1
        by_cases h2 : a1 = k'
        · subst h2; simp [updateL, lookupStr, updVal]
        · have h2' : ¬ k' = a1 := fun hh => h2 hh.symm
          simp [updateL, lookupStr, updVal, h2, h2']
      · by_cases h2 : a1 = k'
        · subst h2
          simp [updateL, lookupStr, h1, updVal]
        · simp [updateL, lookupStr, h1, h2, ih]

theorem innerAdd_eq_updateL (m : InnerMap) (s : String) (d : Int) :
    innerAdd m s d = updateL (· + d) d m s := by
  induction m with
  | nil => simp [innerAdd, updateL]
  | cons a t ih =>
      obtain ⟨a1, b⟩ := a
      by_cases h : a1 = s <;> simp [innerAdd, updateL, h, ih]

theorem pmAdd_eq_updateL (pm : PairMap) (k s : String) (d : Int) :
    pmAdd pm k s d = updateL (fun m => innerAdd m s d) [(s, d)] pm k := by
  induction pm with
  | nil => simp [pmAdd, updateL, innerAdd]
  | cons a t ih =>
      obtain ⟨a1, m⟩ := a
      by_cases h : a1 = k <;> simp [pmAdd, updateL, h, ih]

theorem pmEnsure_eq_updateL (pm : PairMap) (k : String) :
    pmEnsure pm k = updateL id [] pm k := by
  induction pm with
  | nil => simp [pmEnsure, updateL]
  | cons a t ih =>
      obtain ⟨a1, m⟩ := a
      by_cases h : a1 = k <;> simp [pmEnsure, updateL, h, ih]

theorem chAppend_eq_updateL (ch : ChainMap) (k s : String) :
    chAppend ch k s = updateL (· ++ [s]) [s] ch k := by
  induction ch with
  | nil => simp [chAppend, updateL]
  | cons a t ih =>
      obtain ⟨a1, l⟩ := a
      by_cases h : a1 = k <;> simp [chAppend, updateL, h, ih]

theorem find_eq_true_iff (l : List String) (v : String) : Find l v = true ↔ v ∈ l := by
  induction l with
  | nil => simp [Find]
  | cons x xs ih =>
      by_cases h : x = v
      · simp [Find, h]
      · simp [Find, h, ih, Ne.symm h]

theorem innerGet_innerAdd (m : InnerMap) (s : String) (d : Int) (s' : String) :
    innerGet (innerAdd m s d) s' = innerGet m s' + (if s = s' then d else 0) := by
  rw [innerAdd_eq_updateL]
  unfold innerGet
  rw [lookupStr_updateL]
  by_cases h : s' = s
  · subst h
    cases hl : lookupStr m s' <;> simp [updVal, hl]
  · have h' : ¬ s = s' := fun hh => h hh.symm
    simp [h, h']

theorem mem_innerAdd (m : InnerMap) (s : String) (d : Int) (s' : String) :
    s' ∈ (innerAdd m s d).map Prod.fst ↔ s' = s ∨ s' ∈ m.map Prod.fst := by
  induction m with
  | nil => simp [innerAdd]
  | cons a t ih =>
      obtain ⟨a1, b⟩ := a
      by_cases h : a1 = s
      · subst h; simp [innerAdd]
      · simp [innerAdd, h, ih]; tauto

theorem pmGetInner_pmAdd (pm : PairMap) (k s : String) (d : Int) (k' : String) :
    pmGetInner (pmAdd pm k s d) k' =
      if k' = k then innerAdd (pmGetInner pm k) s d else pmGetInner pm k' := by
  rw [pmAdd_eq_updateL]
  unfold pmGetInner
  rw [lookupStr_updateL]
  by_cases h : k' = k
  · subst h
    cases hl : lookupStr pm k' <;> simp [updVal, hl, innerAdd]
  · simp [h]

theorem pmGet_pmAdd (pm : PairMap) (k s : String) (d : Int) (k' s' : String) :
    pmGet (pmAdd pm k s d) k' s' = pmGet pm k' s' + (if k = k' ∧ s = s' then d else 0) := by
  unfold pmGet
  rw [pmGetInner_pmAdd]
  by_cases h : k' = k
  · subst h; simp [innerGet_innerAdd]
  · have h' : ¬ k = k' := fun hh => h hh.symm
    simp [h, h']

theorem pmKeys_updateL (f : InnerMap → InnerMap) (init : InnerMap) (pm : PairMap) (k : String) :
    pmKeys (updateL f init pm k) =
      if k ∈ pmKeys pm then pmKeys pm else pmKeys pm ++ [k] := by
  induction pm with
  | nil => simp [updateL, pmKeys]
  | cons a t ih =>
      obtain ⟨a1, m⟩ := a
      by_cases h1 : a1 = k
      · subst h1; simp [updateL, pmKeys]
      · simp only [updateL, if_neg h1, pmKeys, List.map_cons] at ih ⊢
        by_cases h2 : k ∈ t.map Prod.fst <;>
          simp [h2, ih, Ne.symm h1]

theorem pmKeys_pmAdd (pm : PairMap) (k s : String) (d : Int) :
    pmKeys (pmAdd pm k s d) = if k ∈ pmKeys pm then pmKeys pm else pmKeys pm ++ [k] := by
  rw [pmAdd_eq_updateL, pmKeys_updateL]

theorem mem_pmKeys_pmAdd (pm : PairMap) (k s : String) (d : Int) (k' : String) :
    k' ∈ pmKeys (pmAdd pm k s d) ↔ k' = k ∨ k' ∈ pmKeys pm := by
  rw [pmKeys_pmAdd]
  by_cases h : k ∈ pmKeys pm
  · simp only [h, if_true]
    constructor
    · tauto
    · rintro (rfl | hm)
      · exact h
      · exact hm
  · simp [h]; tauto

theorem mem_innerKeys_pmAdd (pm : PairMap) (k s : String) (d : Int) (k' s' : String) :
    s' ∈ innerKeys (pmAdd pm k s d) k' ↔ (k' = k ∧ s' = s) ∨ s' ∈ innerKeys pm k' := by
  unfold innerKeys
  rw [pmGetInner_pmAdd]
  by_cases h : k' = k
  · rw [if_pos h, mem_innerAdd]
    simp [h]
  · rw [if_neg h]
    simp [h]

theorem pmGetInner_pmEnsure (pm : PairMap) (k k' : String) :
    pmGetInner (pmEnsure pm k) k' = pmGetInner pm k' := by
  rw [pmEnsure_eq_updateL]
  unfold pmGetInner
  rw [lookupStr_updateL]
  by_cases h : k' = k
  · subst h
    cases hl : lookupStr pm k' <;> simp [updVal, hl]
  · simp [h]

theorem pmGet_pmEnsure (pm : PairMap) (k k' s' : String) :
    pmGet (pmEnsure pm k) k' s' = pmGet pm k' s' := by
  simp [pmGet, pmGetInner_pmEnsure]

theorem innerKeys_pmEnsure (pm : PairMap) (k k' : String) :
    innerKeys (pmEnsure pm k) k' = innerKeys pm k' := by
  simp [innerKeys, pmGetInner_pmEnsure]

theorem mem_pmKeys_pmEnsure (pm : PairMap) (k k' : String) :
    k' ∈ pmKeys (pmEnsure pm k) ↔ k' = k ∨ k' ∈ pmKeys pm := by
  rw [pmEnsure_eq_updateL, pmKeys_updateL]
  by_cases h : k ∈ pmKeys pm
  · simp only [h, if_true]
    constructor
    · tauto
    · rintro (rfl | hm)
      · exact h
      · exact hm
  · simp [h]; tauto

theorem chGetL_chAppend (ch : ChainMap) (k s : String) (k' : String) :
    chGetL (chAppend ch k s) k' = if k' = k then chGetL ch k ++ [s] else chGetL ch k' := by
  rw [chAppend_eq_updateL]
  unfold chGetL
  rw [lookupStr_updateL]
  by_cases h : k' = k
  · subst h
    cases hl : lookupStr ch k' <;> simp [updVal, hl]
  · simp [h]

theorem mem_chGetL_chAdd (ch : ChainMap) (k s : String) (k' s' : String) :
    s' ∈ chGetL (chAdd ch k s) k' ↔ s' ∈ chGetL ch k' ∨ (k' = k ∧ s' = s) := by
  unfold chAdd
  by_cases hf : Find (chGetL ch k) s = true
  · have hm := (find_eq_true_iff _ _).mp hf
    rw [if_pos hf]
    constructor
    · tauto
    · rintro (hx | ⟨rfl, rfl⟩)
      · exact hx
      · exact hm
  · rw [if_neg hf, chGetL_chAppend]
    by_cases h : k' = k
    · subst h; simp
    · simp [h]

theorem nodup_chGetL_chAdd (ch : ChainMap) (k s : String)
    (h : ∀ k0, (chGetL ch k0).Nodup) : ∀ k0, (chGetL (chAdd ch k s) k0).Nodup := by
  intro k0
  unfold chAdd
  by_cases hf : Find (chGetL ch k) s = true
  · rw [if_pos hf]; exact h k0
  · rw [if_neg hf, chGetL_chAppend]
    by_cases h0 : k0 = k
    · rw [if_pos h0]
      subst h0
      refine List.Nodup.append (h k0) (List.nodup_singleton s) ?_
      intro a ha hb
      simp at hb; subst hb
      rw [find_eq_true_iff] at hf
      exact hf ha
    · rw [if_neg h0]; exact h k0

/-! ### Round-trip of the decimal integer encoding -/

theorem digitChar_isDigit {d : Nat} (h : d < 10) : (digitChar d).isDigit = true := by
  interval_cases d <;> decide

theorem digitVal_digitChar {d : Nat} (h : d < 10) : digitVal (digitChar d) = d := by
  interval_cases d <;> decide

theorem isDigit_ne_minus {c : Char} (h : c.isDigit = true) : c ≠ '-' := by
  intro hc; subst hc; simp at h

theorem isDigit_ne_plus {c : Char} (h : c.isDigit = true) : c ≠ '+' := by
  intro hc; subst hc; simp at h

theorem isDigit_ne_quote {c : Char} (h : c.isDigit = true) : c ≠ '"' := by
  intro hc; subst hc; simp at h

theorem natDigitsRevAux_spec :
    ∀ fuel n, n < fuel →
      natDigitsRevAux fuel n ≠ [] ∧ (∀ c ∈ natDigitsRevAux fuel n, c.isDigit = true) ∧
        valRev (natDigitsRevAux fuel n) = n := by
  intro fuel
  induction fuel with
  | zero => intro n hn; omega
  | succ f ih =>
      intro n hn
      by_cases h : n < 10
      · refine ⟨by simp [natDigitsRevAux, h], ?_, ?_⟩
        · intro c hc
          simp [natDigitsRevAux, h] at hc
          subst hc
          exact digitChar_isDigit h
        · simp [natDigitsRevAux, h, valRev, digitVal_digitChar h]
      · have h10 : 10 ≤ n := le_of_not_lt h
        have hd : n / 10 < f := by omega
        obtain ⟨hne, hdig, hval⟩ := ih (n / 10) hd
        refine ⟨by simp [natDigitsRevAux, h], ?_, ?_⟩
        · intro c hc
          simp only [natDigitsRevAux, if_neg h, List.mem_cons] at hc
          rcases hc with rfl | hc
          · exact digitChar_isDigit (Nat.mod_lt _ (by omega))
          · exact hdig c hc
        · simp only [natDigitsRevAux, if_neg h, valRev, hval,
            digitVal_digitChar (Nat.mod_lt n (show 0 < 10 by omega))]
          omega

theorem natDigitsRev_spec (n : Nat) :
    natDigitsRev n ≠ [] ∧ (∀ c ∈ natDigitsRev n, c.isDigit = true) ∧
      valRev (natDigitsRev n) = n :=
  natDigitsRevAux_spec (n + 1) n (Nat.lt_succ_self n)

theorem parseDigitsAux_append (l1 l2 : List Char) (acc : Nat) :
    parseDigitsAux (l1 ++ l2) acc =
      match parseDigitsAux l1 acc with
      | some acc' => parseDigitsAux l2 acc'
      | none => none := by
  induction l1 generalizing acc with
  | nil => simp [parseDigitsAux]
  | cons c cs ih =>
      by_cases h : c.isDigit = true <;> simp [parseDigitsAux, h, ih]

theorem parseDigitsAux_reverse (r : List Char) (acc : Nat) (h : ∀ c ∈ r, c.isDigit = true) :
    parseDigitsAux r.reverse acc = some (acc * 10 ^ r.length + valRev r) := by
  induction r generalizing acc with
  | nil => simp [parseDigitsAux, valRev]
  | cons c cs ih =>
      rw [List.reverse_cons, parseDigitsAux_append,
        ih acc fun x hx => h x (List.mem_cons_of_mem c hx)]
      simp only [parseDigitsAux, h c (List.mem_cons_self c cs), if_true, valRev,
        List.length_cons]
      congr 1
      ring

theorem parseDigits_reverse (r : List Char) (hne : r ≠ []) (h : ∀ c ∈ r, c.isDigit = true) :
    parseDigits r.reverse = some (valRev r) := by
  cases hrev : r.reverse with
  | nil => exact absurd (by simpa using congrArg List.reverse hrev) hne
  | cons c cs =>
      rw [show parseDigits (c :: cs) = parseDigitsAux (c :: cs) 0 from rfl, ← hrev,
        parseDigitsAux_reverse r 0 h]
      simp

theorem natStr_data (n : Nat) : (natStr n).data = (natDigitsRev n).reverse := rfl

theorem Atoi_natStr (n : Nat) : Atoi (natStr n) = some (n : Int) := by
  obtain ⟨hne, hdig, hval⟩ := natDigitsRev_spec n
  unfold Atoi
  rw [natStr_data]
  cases hrev : (natDigitsRev n).reverse with
  | nil => exact absurd (by simpa using congrArg List.reverse hrev) hne
  | cons c cs =>
      have hc : c.isDigit = true := by
        apply hdig
        have : c ∈ (natDigitsRev n).reverse := by
          rw [hrev]; exact List.mem_cons_self c cs
        simpa using this
      rw [show AtoiData (c :: cs) =
            (if c = '-' then (parseDigits cs).map fun n => -(n : Int)
             else if c = '+' then (parseDigits cs).map fun n => (n : Int)
             else (parseDigits (c :: cs)).map fun n => (n : Int)) from rfl]
      rw [if_neg (isDigit_ne_minus hc), if_neg (isDigit_ne_plus hc), ← hrev,
        parseDigits_reverse _ hne hdig, hval]
      rfl

theorem Atoi_Itoa_nonneg (i : Int) (h : 0 ≤ i) : Atoi (Itoa i) = some i := by
  unfold Itoa
  rw [if_neg (not_lt.mpr h), Atoi_natStr, Int.toNat_of_nonneg h]

theorem atoiOr0_Itoa_nonneg (i : Int) (h : 0 ≤ i) : atoiOr0 (Itoa i) = i := by
  rw [atoiOr0, Atoi_Itoa_nonneg i h]; rfl

theorem Itoa_ne_quoteEmpty (i : Int) (h : 0 ≤ i) : Itoa i ≠ quoteEmpty := by
  obtain ⟨hne, hdig, _⟩ := natDigitsRev_spec i.toNat
  unfold Itoa
  rw [if_neg (not_lt.mpr h)]
  intro heq
  have hdata : (natDigitsRev i.toNat).reverse = ['"', '"'] := congrArg String.data heq
  have hmem : '"' ∈ natDigitsRev i.toNat := by
    have : '"' ∈ (natDigitsRev i.toNat).reverse := by
      rw [hdata]; exact List.mem_cons_self _ _
    simpa using this
  exact isDigit_ne_quote (hdig _ hmem) rfl

theorem restoreField_Itoa (i : Int) (h : 0 ≤ i) : restoreField (Itoa i) = Itoa i := by
  rw [restoreField, if_neg (Itoa_ne_quoteEmpty i h)]

/-! ### The trajectory view of `Build` -/

theorem cntKS_append (l1 l2 : List (String × Token)) (K s : String) :
    cntKS (l1 ++ l2) K s = cntKS l1 K s + cntKS l2 K s := by
  induction l1 with
  | nil => simp [cntKS]
  | cons a t ih => obtain ⟨a1, a2⟩ := a; simp [cntKS, ih]; ring

theorem cntKS_pos_iff (l : List (String × Token)) (K s : String) :
    0 < cntKS l K s ↔ (K, s) ∈ l := by
  induction l with
  | nil => simp [cntKS]
  | cons a t ih =>
      obtain ⟨a1, a2⟩ := a
      simp only [cntKS, List.mem_cons]
      by_cases h : a1 = K ∧ a2 = s
      · obtain ⟨rfl, rfl⟩ := h
        simp
      · rw [if_neg h]
        simp only [Nat.zero_add, ih]
        constructor
        · exact fun hh => Or.inr hh
        · rintro (hh | hh)
          · exact absurd ⟨congrArg Prod.fst hh.symm, congrArg Prod.snd hh.symm⟩ h
          · exact hh

theorem cntKS_eq_zero_iff (l : List (String × Token)) (K s : String) :
    cntKS l K s = 0 ↔ (K, s) ∉ l := by
  rw [← cntKS_pos_iff]; omega

theorem shift_ne_nil (p : List Token) (w : Token) : shift p w ≠ [] := by
  simp [shift]

theorem shift_length (p : List Token) (w : Token) (h : p ≠ []) :
    (shift p w).length = p.length := by
  cases p with
  | nil => exact absurd rfl h
  | cons a t => simp [shift]

theorem mem_shift (p : List Token) (w x : Token) (h : x ∈ shift p w) : x ∈ p ∨ x = w := by
  simp only [shift, List.mem_append, List.mem_singleton] at h
  rcases h with h | h
  · exact Or.inl (List.drop_subset 1 p h)
  · exact Or.inr h

theorem traj_cons (p : List Token) (s : Token) (rest : List Token) :
    Traj p (s :: rest) = (p, s) :: Traj (shift p s) rest := rfl

/-- Shape of every trajectory step: the window keeps its length and all its
tokens come from the initial window or the corpus; the step token comes from
the corpus. -/
theorem traj_window (ts : List Token) :
    ∀ p, p ≠ [] → ∀ pr ∈ Traj p ts,
      pr.1.length = p.length ∧ pr.2 ∈ ts ∧ ∀ x ∈ pr.1, x ∈ p ∨ x ∈ ts := by
  induction ts with
  | nil => intro p _ pr hpr; simp [Traj] at hpr
  | cons s rest ih =>
      intro p hp pr hpr
      rw [traj_cons] at hpr
      rcases List.mem_cons.mp hpr with rfl | hpr
      · exact ⟨rfl, List.mem_cons_self _ _, fun x hx => Or.inl hx⟩
      · obtain ⟨hlen, hmem, hwin⟩ := ih (shift p s) (shift_ne_nil p s) pr hpr
        refine ⟨by rw [hlen, shift_length p s hp], List.mem_cons_of_mem _ hmem, ?_⟩
        intro x hx
        rcases hwin x hx with hx' | hx'
        · rcases mem_shift p s x hx' with h | h
          · exact Or.inl h
          · exact Or.inr (h ▸ List.mem_cons_self _ _)
        · exact Or.inr (List.mem_cons_of_mem _ hx')

theorem buildGo_cons (pm : PairMap) (ch : ChainMap) (p : List Token) (s : Token)
    (rest : List Token) :
    buildGo pm ch p (s :: rest) =
      buildGo (pmAdd pm (prefixKey p) s 1) (chAdd ch (prefixKey p) s) (shift p s) rest := rfl

theorem buildGo_pmGet (ts : List Token) :
    ∀ pm ch p K s, pmGet (buildGo pm ch p ts).1 K s =
      pmGet pm K s + (cntKS ((Traj p ts).map keyed) K s : Int) := by
  induction ts with
  | nil => intro pm ch p K s; simp [buildGo, Traj, cntKS]
  | cons t rest ih =>
      intro pm ch p K s
      rw [buildGo_cons, ih, pmGet_pmAdd, traj_cons]
      simp only [List.map_cons, keyed, cntKS]
      push_cast
      ring

theorem buildGo_pmKeys_mem (ts : List Token) :
    ∀ pm ch p K, K ∈ pmKeys (buildGo pm ch p ts).1 ↔
      K ∈ pmKeys pm ∨ K ∈ keysOf (Traj p ts) := by
  induction ts with
  | nil => intro pm ch p K; simp [buildGo, Traj, keysOf]
  | cons t rest ih =>
      intro pm ch p K
      rw [buildGo_cons, ih, mem_pmKeys_pmAdd, traj_cons]
      simp only [keysOf, List.map_cons, List.mem_cons]
      tauto

theorem buildGo_innerKeys_mem (ts : List Token) :
    ∀ pm ch p K s, s ∈ innerKeys (buildGo pm ch p ts).1 K ↔
      s ∈ innerKeys pm K ∨ (K, s) ∈ (Traj p ts).map keyed := by
  induction ts with
  | nil => intro pm ch p K s; simp [buildGo, Traj]
  | cons t rest ih =>
      intro pm ch p K s
      rw [buildGo_cons, ih, mem_innerKeys_pmAdd, traj_cons]
      simp only [List.map_cons, keyed, List.mem_cons, Prod.mk.injEq]
      tauto

theorem buildGo_chGetL_mem (ts : List Token) :
    ∀ pm ch p K s, s ∈ chGetL (buildGo pm ch p ts).2 K ↔
      s ∈ chGetL ch K ∨ (K, s) ∈ (Traj p ts).map keyed := by
  induction ts with
  | nil => intro pm ch p K s; simp [buildGo, Traj]
  | cons t rest ih =>
      intro pm ch p K s
      rw [buildGo_cons, ih, mem_chGetL_chAdd, traj_cons]
      simp only [List.map_cons, keyed, List.mem_cons, Prod.mk.injEq]
      tauto

theorem buildGo_pmKeys (ts : List Token) :
    ∀ pm ch p, pmKeys (buildGo pm ch p ts).1 = accNew (pmKeys pm) (keysOf (Traj p ts)) := by
  induction ts with
  | nil => intro pm ch p; simp [buildGo, Traj, keysOf, accNew]
  | cons t rest ih =>
      intro pm ch p
      rw [buildGo_cons, ih, traj_cons]
      simp only [keysOf, List.map_cons, accNew]
      by_cases h : prefixKey p ∈ pmKeys pm
      · rw [pmKeys_pmAdd, if_pos h, if_pos ((find_eq_true_iff _ _).mpr h)]
      · rw [pmKeys_pmAdd, if_neg h,
          if_neg (fun hf => h ((find_eq_true_iff _ _).mp hf))]

theorem buildGo_nodup_ch (ts : List Token) :
    ∀ pm ch p, (∀ K, (chGetL ch K).Nodup) →
      ∀ K, (chGetL (buildGo pm ch p ts).2 K).Nodup := by
  induction ts with
  | nil => intro pm ch p h; exact h
  | cons t rest ih =>
      intro pm ch p h
      rw [buildGo_cons]
      exact ih _ _ _ (nodup_chGetL_chAdd ch (prefixKey p) t h)

/-! ### First-seen stores (`accNew` / `newOnes`) -/

theorem accNew_eq_append_newOnes (ks : List String) :
    ∀ st, accNew st ks = st ++ newOnes st ks := by
  induction ks with
  | nil => intro st; simp [accNew, newOnes]
  | cons k rest ih =>
      intro st
      by_cases h : Find st k = true
      · simp only [accNew, newOnes, if_pos h]
        exact ih st
      · simp only [accNew, newOnes, if_neg h]
        rw [ih (st ++ [k])]
        simp

theorem mem_newOnes (ks : List String) :
    ∀ st x, x ∈ newOnes st ks ↔ x ∈ ks ∧ x ∉ st := by
  induction ks with
  | nil => intro st x; simp [newOnes]
  | cons k rest ih =>
      intro st x
      by_cases h : Find st k = true
      · have hk := (find_eq_true_iff _ _).mp h
        simp only [newOnes, if_pos h, ih, List.mem_cons]
        constructor
        · exact fun ⟨h1, h2⟩ => ⟨Or.inr h1, h2⟩
        · rintro ⟨rfl | h1, h2⟩
          · exact absurd hk h2
          · exact ⟨h1, h2⟩
      · have hk : k ∉ st := fun hm => h ((find_eq_true_iff _ _).mpr hm)
        simp only [newOnes, if_neg h, List.mem_cons, ih]
        constructor
        · rintro (rfl | ⟨h1, h2⟩)
          · exact ⟨Or.inl rfl, hk⟩
          · refine ⟨Or.inr h1, fun hm => h2 ?_⟩
            simp [hm]
        · rintro ⟨rfl | h1, h2⟩
          · exact Or.inl rfl
          · by_cases hxk : x = k
            · exact Or.inl hxk
            · exact Or.inr ⟨h1, by simp [h2, hxk]⟩

theorem nodup_newOnes (ks : List String) : ∀ st, (newOnes st ks).Nodup := by
  induction ks with
  | nil => intro st; simp [newOnes]
  | cons k rest ih =>
      intro st
      by_cases h : Find st k = true
      · simpa only [newOnes, if_pos h] using ih st
      · simp only [newOnes, if_neg h, List.nodup_cons]
        refine ⟨fun hm => ?_, ih (st ++ [k])⟩
        rw [mem_newOnes] at hm
        exact hm.2 (by simp)

theorem newOnes_append (ks1 ks2 : List String) :
    ∀ st, newOnes st (ks1 ++ ks2) = newOnes st ks1 ++ newOnes (accNew st ks1) ks2 := by
  induction ks1 with
  | nil => intro st; simp [newOnes, accNew]
  | cons k rest ih =>
      intro st
      by_cases h : Find st k = true
      · simp only [List.cons_append, newOnes, accNew, if_pos h]
        exact ih st
      · simp only [List.cons_append, newOnes, accNew, if_neg h, List.append_eq]
        rw [ih (st ++ [k])]

theorem accNew_append (ks1 ks2 : List String) :
    ∀ st, accNew st (ks1 ++ ks2) = accNew (accNew st ks1) ks2 := by
  induction ks1 with
  | nil => intro st; simp [accNew]
  | cons k rest ih =>
      intro st
      by_cases h : Find st k = true
      · simp only [List.cons_append, accNew, if_pos h]
        exact ih st
      · simp only [List.cons_append, accNew, if_neg h]
        exact ih (st ++ [k])

theorem keysOf_append (P1 P2 : List (List Token × Token)) :
    keysOf (P1 ++ P2) = keysOf P1 ++ keysOf P2 := List.map_append _ _ _

/-! ### Lifting the characterisation to `Build` and `BuildMany` -/

theorem Build_pairmap (c : Chain) (ts : List Token) :
    (Build c ts).pairmap = (buildGo c.pairmap c.chain (List.replicate c.prefixLen "") ts).1 := rfl

theorem Build_chain (c : Chain) (ts : List Token) :
    (Build c ts).chain = (buildGo c.pairmap c.chain (List.replicate c.prefixLen "") ts).2 := rfl

theorem Build_prefixLen (c : Chain) (ts : List Token) : (Build c ts).prefixLen = c.prefixLen := rfl

theorem Build_prefixStorage (c : Chain) (ts : List Token) :
    (Build c ts).prefixStorage = c.prefixStorage := rfl

theorem Build_text (c : Chain) (ts : List Token) : (Build c ts).text = c.text ++ [ts] := rfl

theorem BuildMany_nil (c : Chain) : BuildMany c [] = c := rfl

theorem BuildMany_cons (c : Chain) (ts : List Token) (tss : List (List Token)) :
    BuildMany c (ts :: tss) = BuildMany (Build c ts) tss := rfl

theorem wTraj_cons (k : Nat) (ts : List Token) (tss : List (List Token)) :
    wTraj k (ts :: tss) = Traj (List.replicate k "") ts ++ wTraj k tss := by
  simp [wTraj]

theorem BuildMany_prefixLen (tss : List (List Token)) :
    ∀ c, (BuildMany c tss).prefixLen = c.prefixLen := by
  induction tss with
  | nil => intro c; rfl
  | cons ts rest ih => intro c; rw [BuildMany_cons, ih, Build_prefixLen]

theorem BuildMany_prefixStorage (tss : List (List Token)) :
    ∀ c, (BuildMany c tss).prefixStorage = c.prefixStorage := by
  induction tss with
  | nil => intro c; rfl
  | cons ts rest ih => intro c; rw [BuildMany_cons, ih, Build_prefixStorage]

theorem BuildMany_text (tss : List (List Token)) :
    ∀ c, (BuildMany c tss).text = c.text ++ tss := by
  induction tss with
  | nil => intro c; simp [BuildMany_nil]
  | cons ts rest ih => intro c; rw [BuildMany_cons, ih, Build_text]; simp

theorem BuildMany_pmGet (tss : List (List Token)) :
    ∀ c K s, pmGet (BuildMany c tss).pairmap K s =
      pmGet c.pairmap K s + (cntKS ((wTraj c.prefixLen tss).map keyed) K s : Int) := by
  induction tss with
  | nil => intro c K s; simp [BuildMany_nil, wTraj, cntKS]
  | cons ts rest ih =>
      intro c K s
      rw [BuildMany_cons, ih, Build_prefixLen, Build_pairmap, buildGo_pmGet, wTraj_cons,
        List.map_append, cntKS_append]
      push_cast
      ring

theorem BuildMany_pmKeys_mem (tss : List (List Token)) :
    ∀ c K, K ∈ pmKeys (BuildMany c tss).pairmap ↔
      K ∈ pmKeys c.pairmap ∨ K ∈ keysOf (wTraj c.prefixLen tss) := by
  induction tss with
  | nil => intro c K; simp [BuildMany_nil, wTraj, keysOf]
  | cons ts rest ih =>
      intro c K
      rw [BuildMany_cons, ih, Build_prefixLen, Build_pairmap, buildGo_pmKeys_mem, wTraj_cons,
        keysOf_append]
      simp only [List.mem_append]
      tauto

theorem BuildMany_innerKeys_mem (tss : List (List Token)) :
    ∀ c K s, s ∈ innerKeys (BuildMany c tss).pairmap K ↔
      s ∈ innerKeys c.pairmap K ∨ (K, s) ∈ (wTraj c.prefixLen tss).map keyed := by
  induction tss with
  | nil => intro c K s; simp [BuildMany_nil, wTraj]
  | cons ts rest ih =>
      intro c K s
      rw [BuildMany_cons, ih, Build_prefixLen, Build_pairmap, buildGo_innerKeys_mem, wTraj_cons,
        List.map_append]
      simp only [List.mem_append]
      tauto

theorem BuildMany_chGetL_mem (tss : List (List Token)) :
    ∀ c K s, s ∈ chGetL (BuildMany c tss).chain K ↔
      s ∈ chGetL c.chain K ∨ (K, s) ∈ (wTraj c.prefixLen tss).map keyed := by
  induction tss with
  | nil => intro c K s; simp [BuildMany_nil, wTraj]
  | cons ts rest ih =>
      intro c K s
      rw [BuildMany_cons, ih, Build_prefixLen, Build_chain, buildGo_chGetL_mem, wTraj_cons,
        List.map_append]
      simp only [List.mem_append]
      tauto

theorem BuildMany_pmKeys (tss : List (List Token)) :
    ∀ c, pmKeys (BuildMany c tss).pairmap =
      accNew (pmKeys c.pairmap) (keysOf (wTraj c.prefixLen tss)) := by
  induction tss with
  | nil => intro c; simp [BuildMany_nil, wTraj, keysOf, accNew]
  | cons ts rest ih =>
      intro c
      rw [BuildMany_cons, ih, Build_prefixLen, Build_pairmap, buildGo_pmKeys, wTraj_cons,
        keysOf_append, accNew_append]

theorem BuildMany_nodup_ch (tss : List (List Token)) :
    ∀ c, (∀ K, (chGetL c.chain K).Nodup) →
      ∀ K, (chGetL (BuildMany c tss).chain K).Nodup := by
  induction tss with
  | nil => intro c h; exact h
  | cons ts rest ih =>
      intro c h
      rw [BuildMany_cons]
      refine ih _ ?_
      rw [Build_chain]
      exact buildGo_nodup_ch ts _ _ _ h

/-! ### The writer under a total replay -/

theorem wlines_append (c : Chain) (P1 P2 : List (List Token × Token)) :
    ∀ st, wlines c st (P1 ++ P2) = wlines c st P1 ++ wlines c (accNew st (keysOf P1)) P2 := by
  induction P1 with
  | nil => intro st; simp [wlines, keysOf, accNew]
  | cons pr rest ih =>
      obtain ⟨w, t⟩ := pr
      intro st
      by_cases h : Find st (prefixKey w) = true
      · simp only [List.cons_append, wlines, keysOf, List.map_cons, accNew, if_pos h]
        exact ih st
      · simp only [List.cons_append, wlines, keysOf, List.map_cons, accNew, if_neg h,
          List.append_eq]
        rw [ih (st ++ [prefixKey w])]
        simp [keysOf]

theorem writeGo_eq (c : Chain) (ts : List Token) :
    ∀ p storage, (∀ pr ∈ Traj p ts, chGetL c.chain (prefixKey pr.1) ≠ []) →
      writeGo c p ts storage =
        (wlines c storage (Traj p ts), accNew storage (keysOf (Traj p ts))) := by
  induction ts with
  | nil => intro p storage _; simp [writeGo, Traj, wlines, accNew, keysOf]
  | cons t rest ih =>
      intro p storage h
      have hne : chGetL c.chain (prefixKey p) ≠ [] := by
        refine h (p, t) ?_
        rw [traj_cons]
        exact List.mem_cons_self _ _
      have hrest : ∀ pr ∈ Traj (shift p t) rest, chGetL c.chain (prefixKey pr.1) ≠ [] := by
        intro pr hpr
        refine h pr ?_
        rw [traj_cons]
        exact List.mem_cons_of_mem _ hpr
      have hlen : ¬ (chGetL c.chain (prefixKey p)).length = 0 := by
        simpa [List.length_eq_zero] using hne
      rw [traj_cons]
      simp only [writeGo, wlines, keysOf, List.map_cons, accNew, if_neg hlen]
      by_cases hf : Find storage (prefixKey p) = true
      · rw [if_pos hf, if_pos hf, if_pos hf]
        exact ih (shift p t) storage hrest
      · rw [if_neg hf, if_neg hf, if_neg hf]
        rw [ih (shift p t) (storage ++ [prefixKey p]) hrest]
        rfl

theorem writeCorpora_eq (c : Chain) (tss : List (List Token)) :
    ∀ storage,
      (∀ ts ∈ tss, ∀ pr ∈ Traj (List.replicate c.prefixLen "") ts,
        chGetL c.chain (prefixKey pr.1) ≠ []) →
      writeCorpora c tss storage =
        (wlines c storage (wTraj c.prefixLen tss),
          accNew storage (keysOf (wTraj c.prefixLen tss))) := by
  induction tss with
  | nil => intro storage _; simp [writeCorpora, wTraj, wlines, accNew, keysOf]
  | cons ts rest ih =>
      intro storage h
      have h1 := h ts (List.mem_cons_self _ _)
      have h2 : ∀ ts' ∈ rest, ∀ pr ∈ Traj (List.replicate c.prefixLen "") ts',
          chGetL c.chain (prefixKey pr.1) ≠ [] :=
        fun ts' hts' => h ts' (List.mem_cons_of_mem _ hts')
      simp only [writeCorpora]
      rw [writeGo_eq c ts _ storage h1, ih _ h2, wTraj_cons, wlines_append, keysOf_append,
        accNew_append]

/-- Structure of every line the writer emits: the formatted window followed by
the formatted suffix list of that window's key. -/
theorem mem_wlines (c : Chain) (P : List (List Token × Token)) :
    ∀ st l, l ∈ wlines c st P → ∃ w t, (w, t) ∈ P ∧
      l = fmtWindow w ++ fmtSuffixes c.pairmap (prefixKey w) (chGetL c.chain (prefixKey w)) := by
  induction P with
  | nil => intro st l hl; simp [wlines] at hl
  | cons pr rest ih =>
      obtain ⟨w, t⟩ := pr
      intro st l hl
      by_cases h : Find st (prefixKey w) = true
      · rw [wlines, if_pos h] at hl
        obtain ⟨w', t', hm, he⟩ := ih st l hl
        exact ⟨w', t', List.mem_cons_of_mem _ hm, he⟩
      · rw [wlines, if_neg h] at hl
        rcases List.mem_cons.mp hl with rfl | hl
        · exact ⟨w, t, List.mem_cons_self _ _, rfl⟩
        · obtain ⟨w', t', hm, he⟩ := ih _ l hl
          exact ⟨w', t', List.mem_cons_of_mem _ hm, he⟩

theorem restoreField_fmt (w : Token) (hw : w ≠ quoteEmpty) :
    restoreField (if w = "" then quoteEmpty else w) = w := by
  by_cases h : w = ""
  · simp [h, restoreField]
  · simp [h, restoreField, hw]

theorem map_restore_fmtWindow (w : List Token) (hw : ∀ x ∈ w, x ≠ quoteEmpty) :
    (fmtWindow w).map restoreField = w := by
  induction w with
  | nil => simp [fmtWindow]
  | cons x rest ih =>
      simp only [fmtWindow, List.map_cons, List.map_map] at ih ⊢
      rw [restoreField_fmt x (hw x (List.mem_cons_self _ _))]
      have := ih fun y hy => hw y (List.mem_cons_of_mem _ hy)
      simp only [fmtWindow, List.map_map] at this
      rw [this]

theorem lineKeyR_line (k : Nat) (w : List Token) (suffixPart : List String)
    (hlen : w.length = k) (hw : ∀ x ∈ w, x ≠ quoteEmpty) :
    lineKeyR k (fmtWindow w ++ suffixPart) = prefixKey w := by
  unfold lineKeyR
  rw [List.map_append, map_restore_fmtWindow w hw,
    List.take_append_of_le_length (le_of_eq hlen.symm), ← hlen, List.take_length]
  rfl

theorem map_lineKeyR_wlines (c : Chain) (k : Nat) (P : List (List Token × Token))
    (hP : ∀ pr ∈ P, pr.1.length = k ∧ ∀ x ∈ pr.1, x ≠ quoteEmpty) :
    ∀ st, (wlines c st P).map (lineKeyR k) = newOnes st (keysOf P) := by
  induction P with
  | nil => intro st; simp [wlines, keysOf, newOnes]
  | cons pr rest ih =>
      obtain ⟨w, t⟩ := pr
      have hw := hP (w, t) (List.mem_cons_self _ _)
      have hrest := fun pr hpr => hP pr (List.mem_cons_of_mem _ hpr)
      intro st
      by_cases h : Find st (prefixKey w) = true
      · simp only [wlines, keysOf, List.map_cons, newOnes, if_pos h]
        exact ih hrest st
      · simp only [wlines, keysOf, List.map_cons, newOnes, if_neg h]
        rw [lineKeyR_line k w _ hw.1 hw.2, ih hrest (st ++ [prefixKey w])]
        rfl

/-! ### The reader on writer-shaped lines -/

theorem fmtSuffixes_of_ne_empty (pm : PairMap) (K : String) (choices : List String)
    (h : ∀ s ∈ choices, s ≠ "") :
    fmtSuffixes pm K choices = choices.flatMap fun s => [s, Itoa (pmGet pm K s)] := by
  induction choices with
  | nil => simp [fmtSuffixes]
  | cons s rest ih =>
      simp only [fmtSuffixes, List.flatMap_cons, if_neg (h s (List.mem_cons_self _ _))] at ih ⊢
      rw [ih fun x hx => h x (List.mem_cons_of_mem _ hx)]

theorem length_flatTwo (choices : List String) (g : String → String) :
    (choices.flatMap fun s => [s, g s]).length = 2 * choices.length := by
  induction choices with
  | nil => simp
  | cons s rest ih => simp only [List.flatMap_cons, List.length_append, ih]; simp; omega

theorem map_restore_flatTwo (choices : List String) (g : String → String)
    (h1 : ∀ s ∈ choices, s ≠ quoteEmpty) (h2 : ∀ s ∈ choices, g s ≠ quoteEmpty) :
    (choices.flatMap fun s => [s, g s]).map restoreField =
      choices.flatMap fun s => [s, g s] := by
  induction choices with
  | nil => simp
  | cons s rest ih =>
      simp only [List.flatMap_cons, List.map_append, List.map_cons, List.map_nil]
      rw [show restoreField s = s from
          by rw [restoreField, if_neg (h1 s (List.mem_cons_self _ _))],
        show restoreField (g s) = g s from
          by rw [restoreField, if_neg (h2 s (List.mem_cons_self _ _))],
        ih (fun x hx => h1 x (List.mem_cons_of_mem _ hx))
          (fun x hx => h2 x (List.mem_cons_of_mem _ hx))]

theorem readPairs_flatTwo (choices : List String) :
    ∀ pm K (g : String → String), choices.Nodup →
      (∀ K' s', pmGet (readPairs pm K (choices.flatMap fun s => [s, g s]) choices.length) K' s' =
        pmGet pm K' s' + (if K' = K ∧ s' ∈ choices then atoiOr0 (g s') else 0)) ∧
      (∀ K', K' ∈ pmKeys (readPairs pm K (choices.flatMap fun s => [s, g s]) choices.length) ↔
        K' ∈ pmKeys pm ∨ (K' = K ∧ choices ≠ [])) ∧
      (∀ K' s', s' ∈ innerKeys (readPairs pm K (choices.flatMap fun s => [s, g s])
          choices.length) K' ↔
        s' ∈ innerKeys pm K' ∨ (K' = K ∧ s' ∈ choices)) := by
  induction choices with
  | nil =>
      intro pm K g _
      refine ⟨fun K' s' => by simp [readPairs], fun K' => by simp [readPairs],
        fun K' s' => by simp [readPairs]⟩
  | cons s cs ih =>
      intro pm K g hnd
      have hsn : s ∉ cs := (List.nodup_cons.mp hnd).1
      have hnd' : cs.Nodup := (List.nodup_cons.mp hnd).2
      have hstep : readPairs pm K ((s :: cs).flatMap fun x => [x, g x]) (s :: cs).length =
          readPairs (pmAdd pm K s (atoiOr0 (g s))) K (cs.flatMap fun x => [x, g x]) cs.length := by
        simp only [List.flatMap_cons, List.cons_append, List.length_cons]
        rfl
      obtain ⟨ihGet, ihKeys, ihInner⟩ := ih (pmAdd pm K s (atoiOr0 (g s))) K g hnd'
      refine ⟨?_, ?_, ?_⟩
      · intro K' s'
        rw [hstep, ihGet K' s', pmGet_pmAdd]
        by_cases hK : K' = K
        · subst hK
          by_cases hs : s' = s
          · subst hs
            rw [if_pos ⟨rfl, rfl⟩, if_neg (fun hc => hsn hc.2),
              if_pos ⟨rfl, List.mem_cons_self _ _⟩]
            ring
          · rw [if_neg (fun hc : K' = K' ∧ s = s' => hs hc.2.symm)]
            by_cases hcs : s' ∈ cs
            · rw [if_pos ⟨rfl, hcs⟩, if_pos ⟨rfl, List.mem_cons_of_mem _ hcs⟩]
              ring
            · rw [if_neg (fun hc => hcs hc.2),
                if_neg (fun hc : K' = K' ∧ s' ∈ s :: cs => by
                  rcases List.mem_cons.mp hc.2 with h | h
                  · exact hs h
                  · exact hcs h)]
              ring
        · rw [if_neg (fun hc : K = K' ∧ s = s' => hK hc.1.symm),
            if_neg (fun hc => hK hc.1), if_neg (fun hc => hK hc.1)]
          ring
      · intro K'
        rw [hstep, ihKeys K', mem_pmKeys_pmAdd]
        constructor
        · rintro ((rfl | hm) | ⟨rfl, _⟩)
          · exact Or.inr ⟨rfl, List.cons_ne_nil _ _⟩
          · exact Or.inl hm
          · exact Or.inr ⟨rfl, List.cons_ne_nil _ _⟩
        · rintro (hm | ⟨rfl, _⟩)
          · exact Or.inl (Or.inr hm)
          · exact Or.inl (Or.inl rfl)
      · intro K' s'
        rw [hstep, ihInner K' s', mem_innerKeys_pmAdd]
        constructor
        · rintro ((⟨rfl, rfl⟩ | hm) | ⟨rfl, hcs⟩)
          · exact Or.inr ⟨rfl, List.mem_cons_self _ _⟩
          · exact Or.inl hm
          · exact Or.inr ⟨rfl, List.mem_cons_of_mem _ hcs⟩
        · rintro (hm | ⟨rfl, hcs⟩)
          · exact Or.inl (Or.inr hm)
          · rcases List.mem_cons.mp hcs with rfl | hcs'
            · exact Or.inl (Or.inl ⟨rfl, rfl⟩)
            · exact Or.inr ⟨rfl, hcs'⟩

theorem readLine_wline (k : Nat) (c : Chain) (w : List Token) (pm : PairMap) (st : List String)
    (hlen : w.length = k) (hwq : ∀ x ∈ w, x ≠ quoteEmpty)
    (hgood : ∀ s ∈ chGetL c.chain (prefixKey w), s ≠ "" ∧ s ≠ quoteEmpty)
    (hnn : ∀ s, 0 ≤ pmGet c.pairmap (prefixKey w) s) :
    readLine k pm st
        (fmtWindow w ++ fmtSuffixes c.pairmap (prefixKey w) (chGetL c.chain (prefixKey w))) =
      some (readPairs (pmEnsure pm (prefixKey w)) (prefixKey w)
          ((chGetL c.chain (prefixKey w)).flatMap fun s =>
            [s, Itoa (pmGet c.pairmap (prefixKey w) s)])
          (chGetL c.chain (prefixKey w)).length,
        st ++ [prefixKey w]) := by
  have hfs : fmtSuffixes c.pairmap (prefixKey w) (chGetL c.chain (prefixKey w)) =
      (chGetL c.chain (prefixKey w)).flatMap fun s =>
        [s, Itoa (pmGet c.pairmap (prefixKey w) s)] :=
    fmtSuffixes_of_ne_empty _ _ _ fun s hs => (hgood s hs).1
  rw [hfs]
  unfold readLine
  have hflen : ((chGetL c.chain (prefixKey w)).flatMap fun s =>
      [s, Itoa (pmGet c.pairmap (prefixKey w) s)]).length =
        2 * (chGetL c.chain (prefixKey w)).length := length_flatTwo _ _
  have hwl : (fmtWindow w).length = k := by
    simp only [fmtWindow, List.length_map]; exact hlen
  have hlin : ¬ (fmtWindow w ++ (chGetL c.chain (prefixKey w)).flatMap fun s =>
      [s, Itoa (pmGet c.pairmap (prefixKey w) s)]).length < k := by
    rw [List.length_append, hwl]
    omega
  rw [if_neg hlin]
  simp only [List.map_append, map_restore_fmtWindow w hwq,
    map_restore_flatTwo _ _ (fun s hs => (hgood s hs).2)
      (fun s hs => Itoa_ne_quoteEmpty _ (hnn s))]
  rw [← hlen, List.take_left, List.drop_left, hflen]
  have h2 : 2 * (chGetL c.chain (prefixKey w)).length / 2 =
      (chGetL c.chain (prefixKey w)).length := by omega
  rw [h2]
  rfl

theorem wlines_cons (c : Chain) (st : List String) (w : List Token) (t : Token)
    (rest : List (List Token × Token)) :
    wlines c st ((w, t) :: rest) =
      if Find st (prefixKey w) then wlines c st rest
      else (fmtWindow w ++ fmtSuffixes c.pairmap (prefixKey w)
          (chGetL c.chain (prefixKey w))) :: wlines c (st ++ [prefixKey w]) rest := rfl

theorem newOnes_cons (st : List String) (k : String) (ks : List String) :
    newOnes st (k :: ks) =
      if Find st k then newOnes st ks else k :: newOnes (st ++ [k]) ks := rfl

theorem readLines_cons (k : Nat) (pm : PairMap) (st : List String) (l : List String)
    (ls : List (List String)) :
    readLines k pm st (l :: ls) =
      (readLine k pm st l).bind fun r => readLines k r.1 r.2 ls := rfl

/-- Main reader lemma: reading back the lines the writer emitted for the
trajectory `P` (relative to already-emitted keys `st`) adds, for each newly
emitted key, the full suffix counts of that key, and appends those keys to the
reader's `prefixStorage`. -/
theorem readLines_wlines (c : Chain) (k : Nat)
    (hnd : ∀ K, (chGetL c.chain K).Nodup)
    (hgood : ∀ K s, s ∈ chGetL c.chain K → s ≠ "" ∧ s ≠ quoteEmpty)
    (hnn : ∀ K s, 0 ≤ pmGet c.pairmap K s) :
    ∀ P : List (List Token × Token),
      (∀ pr ∈ P, pr.1.length = k ∧ ∀ x ∈ pr.1, x ≠ quoteEmpty) →
      ∀ st pm st_r,
        ∃ res, readLines k pm st_r (wlines c st P) = some res ∧
          res.2 = st_r ++ newOnes st (keysOf P) ∧
          (∀ K s, pmGet res.1 K s = pmGet pm K s +
            (if K ∈ newOnes st (keysOf P) ∧ s ∈ chGetL c.chain K
              then pmGet c.pairmap K s else 0)) ∧
          (∀ K, K ∈ pmKeys res.1 ↔ K ∈ pmKeys pm ∨ K ∈ newOnes st (keysOf P)) ∧
          (∀ K s, s ∈ innerKeys res.1 K ↔ s ∈ innerKeys pm K ∨
            (K ∈ newOnes st (keysOf P) ∧ s ∈ chGetL c.chain K)) := by
  intro P
  induction P with
  | nil =>
      intro _ st pm st_r
      exact ⟨(pm, st_r), by simp [wlines, readLines], by simp [keysOf, newOnes],
        fun K s => by simp [keysOf, newOnes], fun K => by simp [keysOf, newOnes],
        fun K s => by simp [keysOf, newOnes]⟩
  | cons pr rest ih =>
      intro hP st pm st_r
      obtain ⟨w, t⟩ := pr
      have hw := hP (w, t) (List.mem_cons_self _ _)
      have hrest := fun pr hpr => hP pr (List.mem_cons_of_mem _ hpr)
      have hkeysOf : keysOf ((w, t) :: rest) = prefixKey w :: keysOf rest := rfl
      by_cases hf : Find st (prefixKey w) = true
      · have hno : newOnes st (keysOf ((w, t) :: rest)) = newOnes st (keysOf rest) := by
          rw [hkeysOf, newOnes_cons, if_pos hf]
        obtain ⟨res, h1, h2, h3, h4, h5⟩ := ih hrest st pm st_r
        rw [wlines_cons, if_pos hf, hno]
        exact ⟨res, h1, h2, h3, h4, h5⟩
      · have hmain := readLine_wline k c w pm st_r hw.1 hw.2
          (fun s hs => hgood (prefixKey w) s hs) (fun s => hnn (prefixKey w) s)
        obtain ⟨rpGet, rpKeys, rpInner⟩ :=
          readPairs_flatTwo (chGetL c.chain (prefixKey w)) (pmEnsure pm (prefixKey w))
            (prefixKey w) (fun s => Itoa (pmGet c.pairmap (prefixKey w) s)) (hnd (prefixKey w))
        obtain ⟨res, h1, h2, h3, h4, h5⟩ := ih hrest (st ++ [prefixKey w])
          (readPairs (pmEnsure pm (prefixKey w)) (prefixKey w)
            ((chGetL c.chain (prefixKey w)).flatMap fun s =>
              [s, Itoa (pmGet c.pairmap (prefixKey w) s)])
            (chGetL c.chain (prefixKey w)).length)
          (st_r ++ [prefixKey w])
        have hnewmem : prefixKey w ∉ newOnes (st ++ [prefixKey w]) (keysOf rest) := by
          rw [mem_newOnes]
          rintro ⟨_, hb⟩
          exact hb (by simp)
        have hno : newOnes st (keysOf ((w, t) :: rest)) =
            prefixKey w :: newOnes (st ++ [prefixKey w]) (keysOf rest) := by
          rw [hkeysOf, newOnes_cons, if_neg hf]
        refine ⟨res, ?_, ?_, ?_, ?_, ?_⟩
        · rw [wlines_cons, if_neg hf, readLines_cons, hmain, Option.some_bind]
          exact h1
        · rw [hno, h2]
          simp
        · intro K s
          rw [hno, h3 K s, rpGet K s, pmGet_pmEnsure,
            atoiOr0_Itoa_nonneg _ (hnn (prefixKey w) s)]
          by_cases hK : K = prefixKey w
          · subst hK
            have hnotin : ¬ (prefixKey w ∈ newOnes (st ++ [prefixKey w]) (keysOf rest) ∧
                s ∈ chGetL c.chain (prefixKey w)) := fun hc => hnewmem hc.1
            rw [if_neg hnotin]
            by_cases hs : s ∈ chGetL c.chain (prefixKey w)
            · rw [if_pos ⟨rfl, hs⟩, if_pos ⟨List.mem_cons_self _ _, hs⟩]
              ring
            · rw [if_neg (fun hc => hs hc.2), if_neg (fun hc => hs hc.2)]
              ring
          · rw [if_neg (fun hc : K = prefixKey w ∧ s ∈ chGetL c.chain (prefixKey w) => hK hc.1)]
            by_cases hB : K ∈ newOnes (st ++ [prefixKey w]) (keysOf rest) ∧
                s ∈ chGetL c.chain K
            · rw [if_pos hB, if_pos ⟨List.mem_cons_of_mem _ hB.1, hB.2⟩]
              ring
            · rw [if_neg hB, if_neg (fun hc => hB ⟨by
                rcases List.mem_cons.mp hc.1 with h | h
                · exact absurd h hK
                · exact h, hc.2⟩)]
              ring
        · intro K
          rw [hno, h4 K, rpKeys K, mem_pmKeys_pmEnsure]
          simp only [List.mem_cons]
          tauto
        · intro K s
          rw [hno, h5 K s, rpInner K s, innerKeys_pmEnsure]
          constructor
          · rintro ((hm | ⟨he, hc⟩) | ⟨hm, hc⟩)
            · exact Or.inl hm
            · subst he
              exact Or.inr ⟨List.mem_cons_self _ _, hc⟩
            · exact Or.inr ⟨List.mem_cons_of_mem _ hm, hc⟩
          · rintro (hm | ⟨hmem, hc⟩)
            · exact Or.inl (Or.inl hm)
            · rcases List.mem_cons.mp hmem with he | hm2
              · subst he
                exact Or.inl (Or.inr ⟨rfl, hc⟩)
              · exact Or.inr ⟨hm2, hc⟩

/-! ### Facts about chains produced by `Build` -/

theorem traj_token (ts : List Token) : ∀ p pr, pr ∈ Traj p ts → pr.2 ∈ ts := by
  induction ts with
  | nil => intro p pr hpr; simp [Traj] at hpr
  | cons s rest ih =>
      intro p pr hpr
      rw [traj_cons] at hpr
      rcases List.mem_cons.mp hpr with rfl | hpr
      · exact List.mem_cons_self _ _
      · exact List.mem_cons_of_mem _ (ih (shift p s) pr hpr)

theorem mem_wTraj_token (k : Nat) (tss : List (List Token)) (pr : List Token × Token)
    (hpr : pr ∈ wTraj k tss) : ∃ ts ∈ tss, pr.2 ∈ ts := by
  obtain ⟨ts, hts, hpr'⟩ := List.mem_flatMap.mp hpr
  exact ⟨ts, hts, traj_token ts _ pr hpr'⟩

theorem build_totality (k : Nat) (tss : List (List Token)) :
    ∀ ts ∈ tss, ∀ pr ∈ Traj (List.replicate k "") ts,
      chGetL (BuildMany (NewChain k) tss).chain (prefixKey pr.1) ≠ [] := by
  intro ts hts pr hpr
  have hmem : (prefixKey pr.1, pr.2) ∈ (wTraj k tss).map keyed := by
    refine List.mem_map.mpr ⟨pr, ?_, rfl⟩
    unfold wTraj
    exact List.mem_flatMap.mpr ⟨ts, hts, hpr⟩
  have hm2 : pr.2 ∈ chGetL (BuildMany (NewChain k) tss).chain (prefixKey pr.1) := by
    rw [BuildMany_chGetL_mem]
    exact Or.inr hmem
  exact List.ne_nil_of_mem hm2

theorem wTraj_window_valid (k : Nat) (hk : 1 ≤ k) (tss : List (List Token))
    (hgood : ∀ ts ∈ tss, ∀ x ∈ ts, GoodToken x) :
    ∀ pr ∈ wTraj k tss, pr.1.length = k ∧ ∀ x ∈ pr.1, x ≠ quoteEmpty := by
  intro pr hpr
  obtain ⟨ts, hts, hpr'⟩ := List.mem_flatMap.mp hpr
  have hrep : (List.replicate k "" : List Token) ≠ [] := by
    intro h
    have := congrArg List.length h
    simp at this
    omega
  obtain ⟨hlen, _, hwin⟩ := traj_window ts _ hrep pr hpr'
  refine ⟨by rw [hlen, List.length_replicate], ?_⟩
  intro x hx
  rcases hwin x hx with hx' | hx'
  · rw [List.eq_of_mem_replicate hx']
    decide
  · exact (hgood ts hts x hx').2.1

theorem build_chain_good (k : Nat) (tss : List (List Token))
    (hgood : ∀ ts ∈ tss, ∀ x ∈ ts, GoodToken x) :
    ∀ K s, s ∈ chGetL (BuildMany (NewChain k) tss).chain K → s ≠ "" ∧ s ≠ quoteEmpty := by
  intro K s hs
  rw [BuildMany_chGetL_mem] at hs
  rcases hs with hs | hs
  · simp [NewChain, chGetL, lookupStr] at hs
  · obtain ⟨pr, hpr, he⟩ := List.mem_map.mp hs
    have hts := mem_wTraj_token k tss pr hpr
    obtain ⟨ts, hts', hmem⟩ := hts
    have : pr.2 = s := congrArg Prod.snd he
    rw [← this]
    exact ⟨(hgood ts hts' pr.2 hmem).1, (hgood ts hts' pr.2 hmem).2.1⟩

theorem build_pm_nonneg (k : Nat) (tss : List (List Token)) :
    ∀ K s, 0 ≤ pmGet (BuildMany (NewChain k) tss).pairmap K s := by
  intro K s
  rw [BuildMany_pmGet]
  have h0 : pmGet (NewChain k).pairmap K s = 0 := rfl
  rw [h0]
  simp

theorem build_ch_nodup (k : Nat) (tss : List (List Token)) :
    ∀ K, (chGetL (BuildMany (NewChain k) tss).chain K).Nodup :=
  BuildMany_nodup_ch tss (NewChain k) fun K => by simp [NewChain, chGetL, lookupStr]

theorem mem_keysOf_of_mem_keyed (P : List (List Token × Token)) (K : String) (s : Token)
    (h : (K, s) ∈ P.map keyed) : K ∈ keysOf P := by
  obtain ⟨pr, hpr, he⟩ := List.mem_map.mp h
  have : prefixKey pr.1 = K := congrArg Prod.fst he
  exact this ▸ List.mem_map.mpr ⟨pr, hpr, rfl⟩

theorem WriteModel_build_eq (k : Nat) (tss : List (List Token)) :
    WriteModel (BuildMany (NewChain k) tss) =
      (⟨Itoa ((k : Nat) : Int),
          wlines (BuildMany (NewChain k) tss) [] (wTraj k tss)⟩,
        { BuildMany (NewChain k) tss with
            prefixStorage := accNew [] (keysOf (wTraj k tss)) }) := by
  have htext : (BuildMany (NewChain k) tss).text = tss := by
    rw [BuildMany_text]
    rfl
  have hst : (BuildMany (NewChain k) tss).prefixStorage = [] := by
    rw [BuildMany_prefixStorage]; rfl
  have hpl : (BuildMany (NewChain k) tss).prefixLen = k := by
    rw [BuildMany_prefixLen]; rfl
  have htot : ∀ ts ∈ (BuildMany (NewChain k) tss).text,
      ∀ pr ∈ Traj (List.replicate (BuildMany (NewChain k) tss).prefixLen "") ts,
        chGetL (BuildMany (NewChain k) tss).chain (prefixKey pr.1) ≠ [] := by
    rw [htext, hpl]
    exact build_totality k tss
  unfold WriteModel
  rw [writeCorpora_eq (BuildMany (NewChain k) tss) (BuildMany (NewChain k) tss).text
    (BuildMany (NewChain k) tss).prefixStorage htot]
  simp only [hst, htext, hpl]

/-- Reading back the model file written from a built chain: the read succeeds,
the `prefixStorage` of the result lists exactly the distinct prefix keys of
the built table in first-encounter order, and the frequency table is
extensionally identical to the built one. -/
theorem readback_build (k : Nat) (hk : 1 ≤ k) (tss : List (List Token))
    (hgood : ∀ ts ∈ tss, ∀ x ∈ ts, GoodToken x) :
    ∃ c', ReadChainFromFile (WriteModel (BuildMany (NewChain k) tss)).1 = some c' ∧
      c'.prefixLen = k ∧
      c'.prefixStorage = pmKeys (BuildMany (NewChain k) tss).pairmap ∧
      (∀ K s, pmGet c'.pairmap K s = pmGet (BuildMany (NewChain k) tss).pairmap K s) ∧
      (∀ K, K ∈ pmKeys c'.pairmap ↔ K ∈ pmKeys (BuildMany (NewChain k) tss).pairmap) ∧
      (∀ K s, s ∈ innerKeys c'.pairmap K ↔
        s ∈ innerKeys (BuildMany (NewChain k) tss).pairmap K) := by
  have hplC : (NewChain k).prefixLen = k := rfl
  have hwv := wTraj_window_valid k hk tss hgood
  obtain ⟨res, h1, h2, h3, h4, h5⟩ := readLines_wlines (BuildMany (NewChain k) tss) k
    (build_ch_nodup k tss) (build_chain_good k tss hgood) (build_pm_nonneg k tss)
    (wTraj k tss) hwv [] [] []
  have hbk : pmKeys (BuildMany (NewChain k) tss).pairmap =
      newOnes [] (keysOf (wTraj k tss)) := by
    rw [BuildMany_pmKeys, show pmKeys (NewChain k).pairmap = [] from rfl, hplC,
      accNew_eq_append_newOnes, List.nil_append]
  rw [WriteModel_build_eq]
  simp only [ReadChainFromFile]
  rw [Atoi_Itoa_nonneg _ (Int.natCast_nonneg k), Option.some_bind,
    if_neg (Int.not_lt.mpr (Int.natCast_nonneg k)), Int.toNat_natCast, h1,
    Option.map_some']
  refine ⟨_, rfl, rfl, ?_, ?_, ?_, ?_⟩
  · show res.2 = pmKeys (BuildMany (NewChain k) tss).pairmap
    rw [h2, hbk, List.nil_append]
  · intro K s
    show pmGet res.1 K s = pmGet (BuildMany (NewChain k) tss).pairmap K s
    rw [h3 K s, show pmGet ([] : PairMap) K s = 0 from rfl, zero_add]
    by_cases hc : K ∈ newOnes [] (keysOf (wTraj k tss)) ∧
        s ∈ chGetL (BuildMany (NewChain k) tss).chain K
    · rw [if_pos hc]
    · rw [if_neg hc]
      have hnot : (K, s) ∉ (wTraj k tss).map keyed := by
        intro hm
        apply hc
        constructor
        · rw [mem_newOnes]
          exact ⟨mem_keysOf_of_mem_keyed _ _ _ hm, by simp⟩
        · rw [BuildMany_chGetL_mem, hplC]
          exact Or.inr hm
      have hz : cntKS ((wTraj k tss).map keyed) K s = 0 :=
        (cntKS_eq_zero_iff _ _ _).mpr hnot
      rw [BuildMany_pmGet, hplC, show pmGet (NewChain k).pairmap K s = 0 from rfl, hz]
      simp
  · intro K
    show K ∈ pmKeys res.1 ↔ K ∈ pmKeys (BuildMany (NewChain k) tss).pairmap
    rw [h4 K, BuildMany_pmKeys_mem, hplC, mem_newOnes]
    simp [NewChain, pmKeys]
  · intro K s
    show s ∈ innerKeys res.1 K ↔ s ∈ innerKeys (BuildMany (NewChain k) tss).pairmap K
    rw [h5 K s, BuildMany_innerKeys_mem, hplC]
    constructor
    · rintro (hm | ⟨_, hc⟩)
      · simp [innerKeys, pmGetInner, lookupStr] at hm
      · rw [BuildMany_chGetL_mem, hplC] at hc
        rcases hc with hc | hc
        · simp [NewChain, chGetL, lookupStr] at hc
        · exact Or.inr hc
    · rintro (hm | hm)
      · simp [NewChain, innerKeys, pmGetInner, lookupStr] at hm
      · refine Or.inr ⟨?_, ?_⟩
        · rw [mem_newOnes]
          exact ⟨mem_keysOf_of_mem_keyed _ _ _ hm, by simp⟩
        · rw [BuildMany_chGetL_mem, hplC]
          exact Or.inr hm

/-! ### Lemmas about `Generate` -/

theorem genLoop_length (c : Chain) (rng : Nat → Nat) :
    ∀ fuel i p words ws, genLoop c rng fuel i p words = some ws →
      ws.length ≤ words.length + fuel := by
  intro fuel
  induction fuel with
  | zero =>
      intro i p words ws h
      rw [genLoop] at h
      cases h
      simp
  | succ f ih =>
      intro i p words ws h
      rw [genLoop] at h
      by_cases h0 : (pmGetInner c.pairmap (prefixKey p)).length = 0
      · rw [if_pos h0] at h
        cases h
        simp
      · rw [if_neg h0] at h
        by_cases h1 : (weightedPool (pmGetInner c.pairmap (prefixKey p))).length = 0
        · rw [if_pos h1] at h
          cases h
        · rw [if_neg h1] at h
          have := ih _ _ _ _ h
          simp only [List.length_append, List.length_singleton] at this
          omega

theorem GenerateWords_small (c : Chain) (n : Nat) (rng : Nat → Nat)
    (h0 : c.prefixStorage ≠ []) (hn : n ≤ c.prefixLen) :
    GenerateWords c n rng =
      some [String.intercalate " "
        (splitSpace (c.prefixStorage.getD (rng 0 % c.prefixStorage.length) ""))] := by
  unfold GenerateWords
  rw [if_neg (by simpa [List.length_eq_zero] using h0)]
  have hf : n - c.prefixLen = 0 := by omega
  rw [hf]
  rfl

theorem GenerateWords_length (c : Chain) (n : Nat) (rng : Nat → Nat) (ws : List String)
    (h : GenerateWords c n rng = some ws) : ws.length ≤ 1 + (n - c.prefixLen) := by
  unfold GenerateWords at h
  by_cases h0 : c.prefixStorage.length = 0
  · rw [if_pos h0] at h
    cases h
  · rw [if_neg h0] at h
    have hb := genLoop_length c rng (n - c.prefixLen) 1 _ _ ws h
    simpa using hb

theorem build_pmKeys_newOnes (k : Nat) (tss : List (List Token)) :
    pmKeys (BuildMany (NewChain k) tss).pairmap = newOnes [] (keysOf (wTraj k tss)) := by
  rw [BuildMany_pmKeys, show pmKeys (NewChain k).pairmap = [] from rfl,
    show (NewChain k).prefixLen = k from rfl, accNew_eq_append_newOnes, List.nil_append]

/-! ### The claims -/

/-- C1, counterexample: the claim fails as stated.  The two-character string
`""` (the quoted-empty marker itself) is a legitimate whitespace-delimited
token; building from the one-token stream `["\""\""]` with order 1 records it
as a suffix with count 1, the writer emits it verbatim, and the reader's
quote fix turns it into the empty-string suffix — so the read-back table
does not have the same per-suffix counts as the built table. -/
theorem C1_roundtrip_cex :
    (ReadChainFromFile (WriteModel (Build (NewChain 1) ["\"\""])).1).map
        (fun c' => pmGet c'.pairmap "" "\"\"") = some 0 ∧
      pmGet (Build (NewChain 1) ["\"\""]).pairmap "" "\"\"" = 1 := by decide

/-- C1 (amended): for every order k ≥ 1 and every token stream whose tokens
are (as `fmt.Fscan` guarantees) non-empty and whitespace-free, and — the
amendment forced by `C1_roundtrip_cex` — distinct from the two-character
quoted-empty marker, building a table from the stream, writing it with the
model writer and reading the written file back yields a frequency table with
exactly the same prefix keys, the same suffix sets and the same per-suffix
counts as building directly. -/
theorem C1_roundtrip (k : Nat) (hk : 1 ≤ k) (ts : List Token)
    (hgood : ∀ t ∈ ts, GoodToken t) :
    ∃ c', ReadChainFromFile (WriteModel (Build (NewChain k) ts)).1 = some c' ∧
      (∀ K, K ∈ pmKeys c'.pairmap ↔ K ∈ pmKeys (Build (NewChain k) ts).pairmap) ∧
      (∀ K s, s ∈ innerKeys c'.pairmap K ↔
        s ∈ innerKeys (Build (NewChain k) ts).pairmap K) ∧
      (∀ K s, pmGet c'.pairmap K s = pmGet (Build (NewChain k) ts).pairmap K s) := by
  obtain ⟨c', h1, _, _, h4, h5, h6⟩ := readback_build k hk [ts]
    (by intro ts' hts' x hx; rw [List.mem_singleton] at hts'; subst hts'; exact hgood x hx)
  exact ⟨c', h1, h5, h6, h4⟩

/-- C1 witness at the spec's concrete scenario (order 2, corpus
`I am not a number! I am a free man!`). -/
theorem C1_roundtrip_witness :
    (1 ≤ 2 ∧ ∀ t ∈ (["I", "am", "not", "a", "number!", "I", "am", "a", "free",
        "man!"] : List Token), GoodToken t) ∧
    (∃ c', ReadChainFromFile (WriteModel (Build (NewChain 2)
        ["I", "am", "not", "a", "number!", "I", "am", "a", "free", "man!"])).1 = some c' ∧
      (∀ K, K ∈ pmKeys c'.pairmap ↔ K ∈ pmKeys (Build (NewChain 2)
        ["I", "am", "not", "a", "number!", "I", "am", "a", "free", "man!"]).pairmap) ∧
      (∀ K s, s ∈ innerKeys c'.pairmap K ↔ s ∈ innerKeys (Build (NewChain 2)
        ["I", "am", "not", "a", "number!", "I", "am", "a", "free", "man!"]).pairmap K) ∧
      (∀ K s, pmGet c'.pairmap K s = pmGet (Build (NewChain 2)
        ["I", "am", "not", "a", "number!", "I", "am", "a", "free", "man!"]).pairmap K s)) :=
  ⟨⟨by omega, by decide⟩, C1_roundtrip 2 (by omega) _ (by decide)⟩

/-- C2: during `WriteModel`'s replay exactly one line is emitted the first
time each prefix key is encountered and never again (in the same or a later
corpus): the keys of the written lines are the first occurrences of the
replay keys in order, which coincide with the distinct prefix keys of the
table (`pmKeys`) in first-encounter order, without duplicates. -/
theorem C2_one_line_per_key (k : Nat) (hk : 1 ≤ k) (tss : List (List Token))
    (hgood : ∀ ts ∈ tss, ∀ x ∈ ts, GoodToken x) :
    ((WriteModel (BuildMany (NewChain k) tss)).1.lines.map (lineKeyR k) =
        newOnes [] (keysOf (wTraj k tss))) ∧
      ((WriteModel (BuildMany (NewChain k) tss)).1.lines.map (lineKeyR k) =
        pmKeys (BuildMany (NewChain k) tss).pairmap) ∧
      (pmKeys (BuildMany (NewChain k) tss).pairmap).Nodup := by
  have hwv := wTraj_window_valid k hk tss hgood
  have hlines : (WriteModel (BuildMany (NewChain k) tss)).1.lines =
      wlines (BuildMany (NewChain k) tss) [] (wTraj k tss) := by
    rw [WriteModel_build_eq]
  have hmap := map_lineKeyR_wlines (BuildMany (NewChain k) tss) k (wTraj k tss) hwv []
  refine ⟨?_, ?_, ?_⟩
  · rw [hlines, hmap]
  · rw [hlines, hmap, build_pmKeys_newOnes]
  · rw [build_pmKeys_newOnes]
    exact nodup_newOnes _ _

/-- C2 witness at order 1, two corpora sharing a prefix key. -/
theorem C2_one_line_per_key_witness :
    (1 ≤ 1 ∧ ∀ ts ∈ ([["a", "b"], ["a"]] : List (List Token)), ∀ x ∈ ts, GoodToken x) ∧
    (((WriteModel (BuildMany (NewChain 1) [["a", "b"], ["a"]])).1.lines.map (lineKeyR 1) =
        newOnes [] (keysOf (wTraj 1 [["a", "b"], ["a"]]))) ∧
      ((WriteModel (BuildMany (NewChain 1) [["a", "b"], ["a"]])).1.lines.map (lineKeyR 1) =
        pmKeys (BuildMany (NewChain 1) [["a", "b"], ["a"]]).pairmap) ∧
      (pmKeys (BuildMany (NewChain 1) [["a", "b"], ["a"]]).pairmap).Nodup) :=
  ⟨⟨by omega, by decide⟩, C2_one_line_per_key 1 (by omega) _ (by decide)⟩

/-- C3: every non-header line written for a table built from scanned corpora
consists of the k formatted prefix tokens (empty tokens rewritten as the
marker) followed by, for each suffix ever recorded for that prefix (the
suffix sets of `chain` and of the frequency table coincide), the suffix and
its cumulative count; the fields after the first k therefore form complete
pairs and their number is even. -/
theorem C3_line_format (k : Nat) (hk : 1 ≤ k) (tss : List (List Token))
    (hgood : ∀ ts ∈ tss, ∀ x ∈ ts, GoodToken x) :
    ∀ l ∈ (WriteModel (BuildMany (NewChain k) tss)).1.lines,
      ∃ w, w.length = k ∧
        l = fmtWindow w ++
          ((chGetL (BuildMany (NewChain k) tss).chain (prefixKey w)).flatMap fun s =>
            [s, Itoa (pmGet (BuildMany (NewChain k) tss).pairmap (prefixKey w) s)]) ∧
        l.drop k = ((chGetL (BuildMany (NewChain k) tss).chain (prefixKey w)).flatMap fun s =>
          [s, Itoa (pmGet (BuildMany (NewChain k) tss).pairmap (prefixKey w) s)]) ∧
        Even (l.drop k).length ∧
        (∀ s, s ∈ chGetL (BuildMany (NewChain k) tss).chain (prefixKey w) ↔
          s ∈ innerKeys (BuildMany (NewChain k) tss).pairmap (prefixKey w)) := by
  intro l hl
  have hlines : (WriteModel (BuildMany (NewChain k) tss)).1.lines =
      wlines (BuildMany (NewChain k) tss) [] (wTraj k tss) := by
    rw [WriteModel_build_eq]
  rw [hlines] at hl
  obtain ⟨w, t, hpr, he⟩ := mem_wlines _ _ _ l hl
  have hwv := wTraj_window_valid k hk tss hgood (w, t) hpr
  have hgs := build_chain_good k tss hgood (prefixKey w)
  have hflat : fmtSuffixes (BuildMany (NewChain k) tss).pairmap (prefixKey w)
      (chGetL (BuildMany (NewChain k) tss).chain (prefixKey w)) =
      (chGetL (BuildMany (NewChain k) tss).chain (prefixKey w)).flatMap fun s =>
        [s, Itoa (pmGet (BuildMany (NewChain k) tss).pairmap (prefixKey w) s)] :=
    fmtSuffixes_of_ne_empty _ _ _ fun s hs => (hgs s hs).1
  have hfw : (fmtWindow w).length = k := by
    simp only [fmtWindow, List.length_map]
    exact hwv.1
  have hdrop : l.drop k =
      (chGetL (BuildMany (NewChain k) tss).chain (prefixKey w)).flatMap fun s =>
        [s, Itoa (pmGet (BuildMany (NewChain k) tss).pairmap (prefixKey w) s)] := by
    rw [he, hflat, ← hfw, List.drop_left]
  refine ⟨w, hwv.1, ?_, hdrop, ?_, ?_⟩
  · rw [he, hflat]
  · rw [hdrop, length_flatTwo]
    exact even_two_mul _
  · intro s
    rw [BuildMany_chGetL_mem, BuildMany_innerKeys_mem,
      show (NewChain k).prefixLen = k from rfl]
    constructor
    · rintro (hbase | hm)
      · simp [NewChain, chGetL, lookupStr] at hbase
      · exact Or.inr hm
    · rintro (hbase | hm)
      · simp [NewChain, innerKeys, pmGetInner, lookupStr] at hbase
      · exact Or.inr hm

/-- C3 witness at order 2 on the empty-prefix corpus, exercising the marker
formatting. -/
theorem C3_line_format_witness :
    (1 ≤ 2 ∧ ∀ ts ∈ ([["x", "y"]] : List (List Token)), ∀ x ∈ ts, GoodToken x) ∧
    (∀ l ∈ (WriteModel (BuildMany (NewChain 2) [["x", "y"]])).1.lines,
      ∃ w, w.length = 2 ∧
        l = fmtWindow w ++
          ((chGetL (BuildMany (NewChain 2) [["x", "y"]]).chain (prefixKey w)).flatMap fun s =>
            [s, Itoa (pmGet (BuildMany (NewChain 2) [["x", "y"]]).pairmap (prefixKey w) s)]) ∧
        l.drop 2 = ((chGetL (BuildMany (NewChain 2) [["x", "y"]]).chain
            (prefixKey w)).flatMap fun s =>
          [s, Itoa (pmGet (BuildMany (NewChain 2) [["x", "y"]]).pairmap (prefixKey w) s)]) ∧
        Even (l.drop 2).length ∧
        (∀ s, s ∈ chGetL (BuildMany (NewChain 2) [["x", "y"]]).chain (prefixKey w) ↔
          s ∈ innerKeys (BuildMany (NewChain 2) [["x", "y"]]).pairmap (prefixKey w))) :=
  ⟨⟨by omega, by decide⟩, C3_line_format 2 (by omega) _ (by decide)⟩

/-- C4: contrary to the claim (and in line with the design note calling this
a latent defect), the reader does not abort on a count field that fails to
parse as an integer: `strconv.Atoi`'s error is only printed, `freq` stays 0,
and the read continues, returning a model in which the offending suffix was
added with count 0.  Concretely, for the file with header `1` and single line
`a b x` the read succeeds and yields `pairmap["a"]["b"] = 0`. -/
theorem C4_bad_count_continues :
    ReadChainFromFile ⟨"1", [["a", "b", "x"]]⟩ =
      some { NewChain 1 with pairmap := [("a", [("b", 0)])], prefixStorage := ["a"] } := by
  decide

/-- C5: the claim demands an explicit `ExhaustedChainError`, but `Generate`
on a model whose `ChainOrder` list (`prefixStorage`) is empty immediately
calls `rand.Intn(0)`, which panics — modelled as `none`.  No explicit error
value exists in the code. -/
theorem C5_empty_chain_panics (c : Chain) (n : Nat) (rng : Nat → Nat)
    (h : c.prefixStorage = []) : Generate c n rng = none := by
  unfold Generate GenerateWords
  rw [h]
  simp

/-- C5 witness: a freshly created chain has an empty `prefixStorage`, and
generation on it panics (returns `none` in the model). -/
theorem C5_empty_chain_panics_witness :
    (NewChain 2).prefixStorage = [] ∧ Generate (NewChain 2) 5 (fun _ => 0) = none :=
  ⟨rfl, C5_empty_chain_panics (NewChain 2) 5 (fun _ => 0) rfl⟩

/-- C6, counterexample: the claim fails as stated.  For the loaded model with
order 2 whose only prefix key is `a b`, `Generate 1` emits the whole 2-token
starting prefix — 2 tokens, which exceeds the requested count 1. -/
theorem C6_at_most_n_cex :
    (ReadChainFromFile ⟨"2", [["a", "b", "c", "1"]]⟩).map
        (fun c => Generate c 1 fun _ => 0) = some (some "a b") ∧
      ¬ numTokens "a b" ≤ 1 := by decide

/-- C6 (amended): `Generate n` emits the randomly chosen starting prefix as
one element of its `words` list followed by at most `n - k` (truncated
subtraction) suffix tokens; the list therefore has at most `1 + (n - k)`
entries, which bounds the output by n tokens only when n ≥ k — when n < k
the k-token prefix is returned whole, exceeding n. -/
theorem C6_at_most_n_amended (c : Chain) (n : Nat) (rng : Nat → Nat) (ws : List String)
    (h : GenerateWords c n rng = some ws) : ws.length ≤ 1 + (n - c.prefixLen) :=
  GenerateWords_length c n rng ws h

/-- C6 witness on a concrete loaded-style model with order 2. -/
theorem C6_at_most_n_amended_witness :
    GenerateWords ⟨[], 2, [], [("a b", [("c", 1)])], ["a b"]⟩ 5 (fun _ => 0) =
        some ["a b", "c"] ∧
      (["a b", "c"] : List String).length ≤
        1 + (5 - (⟨[], 2, [], [("a b", [("c", 1)])], ["a b"]⟩ : Chain).prefixLen) :=
  ⟨by decide, C6_at_most_n_amended _ 5 (fun _ => 0) _ (by decide)⟩

/-- C7: when the requested word count n is at most the order, the generation
loop runs zero times (`n - k ≤ 0`), and `Generate` returns exactly the
randomly chosen starting prefix: its k tokens (the split of the chosen
`prefixStorage` entry), re-joined with single spaces, and nothing else. -/
theorem C7_small_n_exact (c : Chain) (n : Nat) (rng : Nat → Nat)
    (h0 : c.prefixStorage ≠ []) (hn : n ≤ c.prefixLen) :
    GenerateWords c n rng =
      some [String.intercalate " "
        (splitSpace (c.prefixStorage.getD (rng 0 % c.prefixStorage.length) ""))] ∧
    Generate c n rng =
      some (String.intercalate " "
        (splitSpace (c.prefixStorage.getD (rng 0 % c.prefixStorage.length) ""))) := by
  have hw := GenerateWords_small c n rng h0 hn
  refine ⟨hw, ?_⟩
  unfold Generate
  rw [hw]
  rfl

/-- C7 witness: order 2 model, n = 2 returns exactly the starting prefix. -/
theorem C7_small_n_exact_witness :
    ((⟨[], 2, [], [("a b", [("c", 1)])], ["a b"]⟩ : Chain).prefixStorage ≠ [] ∧
      2 ≤ (⟨[], 2, [], [("a b", [("c", 1)])], ["a b"]⟩ : Chain).prefixLen) ∧
    (GenerateWords ⟨[], 2, [], [("a b", [("c", 1)])], ["a b"]⟩ 2 (fun _ => 0) =
        some [String.intercalate " " (splitSpace
          ((⟨[], 2, [], [("a b", [("c", 1)])], ["a b"]⟩ : Chain).prefixStorage.getD
            ((fun _ : Nat => 0) 0 %
              (⟨[], 2, [], [("a b", [("c", 1)])], ["a b"]⟩ :
                Chain).prefixStorage.length) ""))] ∧
      Generate ⟨[], 2, [], [("a b", [("c", 1)])], ["a b"]⟩ 2 (fun _ => 0) =
        some (String.intercalate " " (splitSpace
          ((⟨[], 2, [], [("a b", [("c", 1)])], ["a b"]⟩ : Chain).prefixStorage.getD
            ((fun _ : Nat => 0) 0 %
              (⟨[], 2, [], [("a b", [("c", 1)])], ["a b"]⟩ :
                Chain).prefixStorage.length) "")))) :=
  ⟨⟨by decide, by decide⟩, C7_small_n_exact _ 2 (fun _ => 0) (by decide) (by decide)⟩

/-- C8, counterexample: the claim fails as stated — `Build` never touches the
`ChainOrder` list (`prefixStorage`).  After `Build` on the one-token corpus
`a` with order 1, the key `""` is in the frequency table while
`prefixStorage` is still empty, so the claimed iff is false. -/
theorem C8_chainorder_cex :
    "" ∈ pmKeys (Build (NewChain 1) ["a"]).pairmap ∧
      (Build (NewChain 1) ["a"]).prefixStorage = [] := by decide

/-- C8 (amended): ingest (`Build`) leaves `ChainOrder` empty; the
first-encounter append happens during `WriteModel`'s replay, after which a
key appears in the frequency table if and only if it appears exactly once in
the chain's `prefixStorage`. -/
theorem C8_chainorder_amended (k : Nat) (_hk : 1 ≤ k) (tss : List (List Token)) :
    (BuildMany (NewChain k) tss).prefixStorage = [] ∧
      ∀ K, K ∈ pmKeys (BuildMany (NewChain k) tss).pairmap ↔
        List.count K (WriteModel (BuildMany (NewChain k) tss)).2.prefixStorage = 1 := by
  have hst : (WriteModel (BuildMany (NewChain k) tss)).2.prefixStorage =
      newOnes [] (keysOf (wTraj k tss)) := by
    rw [WriteModel_build_eq]
    show accNew [] (keysOf (wTraj k tss)) = _
    rw [accNew_eq_append_newOnes, List.nil_append]
  refine ⟨by rw [BuildMany_prefixStorage]; rfl, ?_⟩
  intro K
  rw [hst, build_pmKeys_newOnes]
  constructor
  · intro hm
    exact List.count_eq_one_of_mem (nodup_newOnes _ _) hm
  · intro hc
    have : 0 < List.count K (newOnes [] (keysOf (wTraj k tss))) := by omega
    exact List.count_pos_iff.mp this

/-- C8 witness at order 1 with one corpus. -/
theorem C8_chainorder_amended_witness :
    (1 ≤ 1) ∧
    ((BuildMany (NewChain 1) [["a", "b"]]).prefixStorage = [] ∧
      ∀ K, K ∈ pmKeys (BuildMany (NewChain 1) [["a", "b"]]).pairmap ↔
        List.count K (WriteModel (BuildMany (NewChain 1) [["a", "b"]])).2.prefixStorage = 1) :=
  ⟨by omega, C8_chainorder_amended 1 (by omega) [["a", "b"]]⟩

/-- C9: when every scanned token is non-empty (as whitespace-delimited
scanning guarantees), every suffix recorded in the chain by `Build` is
non-empty, and consequently `WriteModel`'s empty-suffix branch is never
taken: the formatted suffix fields are exactly the two-field
(suffix, cumulative count) pairs. -/
theorem C9_no_empty_suffix (k : Nat) (tss : List (List Token))
    (hne : ∀ ts ∈ tss, ∀ x ∈ ts, x ≠ "") :
    (∀ K s, s ∈ chGetL (BuildMany (NewChain k) tss).chain K → s ≠ "") ∧
      ∀ K, fmtSuffixes (BuildMany (NewChain k) tss).pairmap K
          (chGetL (BuildMany (NewChain k) tss).chain K) =
        (chGetL (BuildMany (NewChain k) tss).chain K).flatMap fun s =>
          [s, Itoa (pmGet (BuildMany (NewChain k) tss).pairmap K s)] := by
  have h1 : ∀ K s, s ∈ chGetL (BuildMany (NewChain k) tss).chain K → s ≠ "" := by
    intro K s hs
    rw [BuildMany_chGetL_mem] at hs
    rcases hs with hs | hs
    · simp [NewChain, chGetL, lookupStr] at hs
    · obtain ⟨pr, hpr, he⟩ := List.mem_map.mp hs
      obtain ⟨ts, hts, hmem⟩ := mem_wTraj_token _ tss pr hpr
      have hsnd : pr.2 = s := congrArg Prod.snd he
      rw [← hsnd]
      exact hne ts hts pr.2 hmem
  exact ⟨h1, fun K => fmtSuffixes_of_ne_empty _ _ _ fun s hs => h1 K s hs⟩

/-- C9 witness. -/
theorem C9_no_empty_suffix_witness :
    (∀ ts ∈ ([["u", "v"]] : List (List Token)), ∀ x ∈ ts, x ≠ "") ∧
    ((∀ K s, s ∈ chGetL (BuildMany (NewChain 1) [["u", "v"]]).chain K → s ≠ "") ∧
      ∀ K, fmtSuffixes (BuildMany (NewChain 1) [["u", "v"]]).pairmap K
          (chGetL (BuildMany (NewChain 1) [["u", "v"]]).chain K) =
        (chGetL (BuildMany (NewChain 1) [["u", "v"]]).chain K).flatMap fun s =>
          [s, Itoa (pmGet (BuildMany (NewChain 1) [["u", "v"]]).pairmap K s)]) :=
  ⟨by decide, C9_no_empty_suffix 1 [["u", "v"]] (by decide)⟩

/-- C10: the reader appends each non-header line's prefix key to the
`ChainOrder` list unconditionally, once per line.  For the concrete file with
header `1` and two lines `a b 1` and `a b 2` (same prefix key `a`), the
returned model has `a` twice in `prefixStorage` while the counts of both
lines are summed into the single table entry `pairmap["a"]["b"] = 3`. -/
theorem C10_duplicate_prefix_lines :
    ReadChainFromFile ⟨"1", [["a", "b", "1"], ["a", "b", "2"]]⟩ =
      some { NewChain 1 with
              pairmap := [("a", [("b", 3)])],
              prefixStorage := ["a", "a"] } := by decide
